import Mathlib

/-!
Verification of `singularity/utils.py` (vsoch/singularity-python).

The Python module is a small library of OS and text helpers.  We give a
shallow embedding: pure string functions become Lean functions on
`List Char` / `String`; effectful functions (process spawning, filesystem
access) are modelled by explicit state passing, with the operating system
represented by oracles (a function from command vectors to an optional
outcome, a file map, a directory world).  Python values that can be passed
to `json.dumps` are modelled by the inductive type `PyVal`; the behaviour
of the standard-library `json` module (`json.dumps` / `json.load`), which
`write_json` / `read_json` call, is modelled faithfully for that value
universe (numbers are modelled as integers; floating point is outside the
model).
-/

namespace SingUtils

/-- Python values as passed to the helpers: `None`, booleans, integers,
strings, lists, tuples and string-keyed dictionaries (a Python `dict`
preserves insertion order, so it is modelled as a list of key/value
pairs; genuine Python dicts have pairwise distinct keys).  This is the
universe of JSON-serializable values for `write_json`: `json.dumps`
accepts all of these, serializing tuples as JSON arrays. -/
inductive PyVal where
  | none
  | bool (b : Bool)
  | int (n : Int)
  | str (s : List Char)
  | list (xs : List PyVal)
  | tuple (xs : List PyVal)
  | dict (kvs : List (List Char × PyVal))

/-! ## Process model

Spawning a process is modelled by an oracle mapping an argument vector to
`some (combined_output, exit_status)` when the executable spawns, and
`none` when spawning raises (`FileNotFoundError`). -/

/-- The operating system's process behaviour: for an argument vector,
either the combined stdout/stderr output and the exit status, or `none`
when the executable cannot be spawned. -/
def ProcOracle : Type := List String → Option (String × Int)

/-- The dictionary returned by `run_command`:
`{'message': ..., 'return_code': ...}`. -/
structure CmdResult where
  message : String
  return_code : Int
deriving DecidableEq

/-- The spawn failure that `Popen` raises when the executable is missing. -/
inductive SpawnErr where
  | fileNotFound
deriving DecidableEq

/-- The argument vector actually spawned by `run_command`:
`if sudo is True: cmd = ['sudo'] + cmd`.  Python's `is True` is an
identity test that holds only for the boolean `True` object, so any
other value (including a non-empty string) leaves `cmd` unchanged. -/
def effectiveCmd (cmd : List String) (sudoArg : PyVal) : List String :=
  match sudoArg with
  | PyVal.bool true => "sudo" :: cmd
  | _ => cmd

/-- `run_command(cmd, sudo)`: spawn `effectiveCmd cmd sudo` with stderr
merged into stdout, wait, and return `{'message': output,
'return_code': returncode}`.  A spawn failure propagates (modelled as
`Except.error`); the function catches nothing. -/
def run_command (cmd : List String) (sudoArg : PyVal) (os : ProcOracle) :
    Except SpawnErr CmdResult :=
  match os (effectiveCmd cmd sudoArg) with
  | Option.none => Except.error SpawnErr.fileNotFound
  | Option.some (out, rc) => Except.ok { message := out, return_code := rc }

/-- `check_install(software, quiet)`: run `[software, '--version']`
(with `software` defaulting to `"singularity"`), returning `False` if the
invocation raises and `True` otherwise; when `quiet` is false and the
exit code is 0 an informational line is logged.  Note the source passes
`software` (a string) as the `sudo` argument of `run_command`.  Returns
the boolean together with the logged lines. -/
def check_install (software : Option String) (quiet : Bool)
    (os : ProcOracle) : Bool × List String :=
  let sw := software.getD "singularity"
  let cmd := [sw, "--version"]
  match run_command cmd (PyVal.str sw.data) os with
  | Except.error _ => (false, [])
  | Except.ok version =>
      if quiet = false ∧ version.return_code = 0 then
        (true, ["Found " ++ sw.toUpper ++ " version " ++ version.message])
      else
        (true, [])

/-! ## Name sanitizer and URI normalizer -/

/-- Python `str.isalnum` (modelled on the ASCII range): letters and
digits. -/
def pyIsAlnum (c : Char) : Bool :=
  c.isAlphanum

/-- Python `str.lower` on a single character (modelled on the ASCII
range). -/
def pyLower (c : Char) : Char :=
  c.toLower

/-- `format_container_name(name, special_characters)`:
`''.join(e.lower() for e in name if e.isalnum() or e in special_characters)`
with `special_characters` defaulting to `[]`. -/
def format_container_name (name : List Char)
    (special : Option (List Char)) : List Char :=
  let sc := special.getD []
  (name.filter (fun e => pyIsAlnum e || sc.contains e)).map pyLower

/-- Spec-side sanitizer, written from the specification's words: produce
a new string containing only the lower-cased characters of `name` that
are alphanumeric or present in the allowed set, preserving original
order; all other characters are dropped. -/
def sanitizeSpec : List Char → List Char → List Char
  | [], _ => []
  | c :: cs, sc =>
      if pyIsAlnum c || sc.contains c then pyLower c :: sanitizeSpec cs sc
      else sanitizeSpec cs sc

/-- One step-bounded pass of Python `str.replace(pat, '')`: scan left to
right; at each position, if `pat` matches here, skip it and continue
after the match, otherwise keep the character.  The fuel is the length
of the string, which suffices for a non-empty pattern. -/
def pyRemoveAux : Nat → List Char → List Char → List Char
  | 0, s, _ => s
  | _ + 1, [], _ => []
  | fuel + 1, c :: rest, pat =>
      if pat.isPrefixOf (c :: rest) then
        pyRemoveAux fuel (List.drop pat.length (c :: rest)) pat
      else
        c :: pyRemoveAux fuel rest pat

/-- Python `s.replace(pat, '')` (removal of every occurrence, left to
right, non-overlapping).  For the empty pattern Python would intersperse
the (empty) replacement, leaving `s` unchanged. -/
def pyRemove (s pat : List Char) : List Char :=
  if pat = [] then s else pyRemoveAux s.length s pat

/-- `remove_uri(container)`:
`container.replace('docker://', '').replace('shub://', '')`. -/
def remove_uri (container : List Char) : List Char :=
  pyRemove (pyRemove container ("docker://".data)) ("shub://".data)

/-- Index of the leftmost occurrence of `pat` in `s`, if any: the least
`i` such that `pat` occurs in `s` starting at position `i` (see
`firstOccur_some` and `firstOccur_none` for this characterization). -/
def firstOccur (pat : List Char) : List Char → Option Nat
  | [] => if pat.isPrefixOf [] then Option.some 0 else Option.none
  | c :: t =>
      if pat.isPrefixOf (c :: t) then Option.some 0
      else (firstOccur pat t).map (fun i => i + 1)

/-- Spec-side removal, written from the specification's words: remove
the literal substring `pat` wherever it occurs, repeatedly taking the
leftmost occurrence and continuing after it (fuel-bounded). -/
def removeOccursAux (pat : List Char) : Nat → List Char → List Char
  | 0, s => s
  | fuel + 1, s =>
      match firstOccur pat s with
      | Option.none => s
      | Option.some i =>
          s.take i ++ removeOccursAux pat fuel (s.drop (i + pat.length))

/-- Spec-side removal of every occurrence of a non-empty `pat`. -/
def removeOccurs (pat s : List Char) : List Char :=
  removeOccursAux pat s.length s

/-- `pat` occurs somewhere in `s` as a contiguous substring. -/
def occursIn (pat s : List Char) : Bool :=
  (firstOccur pat s).isSome

/-! ## Directory model (`mkdir_p`)

`os.makedirs` is modelled on the target path: it raises `OSError` with
`errno = EEXIST` when the path already exists (as a directory or as a
file), may fail with some other injected errno (permissions, read-only
filesystem, ...), and otherwise creates the directory. -/

/-- `errno.EEXIST`. -/
def EEXIST : Nat := 17

/-- The directory-relevant state of the operating system: which paths
exist as directories, which exist as non-directories, and an injected
failure map giving the errno with which `os.makedirs` would fail on a
path for a reason other than existence. -/
structure DirWorld where
  isdir : String → Bool
  isfile : String → Bool
  osErr : String → Option Nat

/-- `os.makedirs(path)`: error `EEXIST` if the path exists, any injected
error otherwise, else create the directory at `path`. -/
def makedirs (p : String) (w : DirWorld) : Except Nat DirWorld :=
  if w.isdir p || w.isfile p then Except.error EEXIST
  else
    match w.osErr p with
    | Option.some e => Except.error e
    | Option.none =>
        Except.ok { w with isdir := fun q => q = p || w.isdir q }

/-- Outcome of `mkdir_p`: either a normal return with the new world and
the logged lines, or termination of the whole process via
`sys.exit(code)` (with the error line logged before exiting). -/
inductive MkdirOutcome where
  | ok (w : DirWorld) (logs : List String)
  | exited (code : Nat) (logs : List String)
deriving Inhabited

/-- `mkdir_p(path)`: try `os.makedirs(path)`; on `OSError` pass when
`e.errno == errno.EEXIST and os.path.isdir(path)`, otherwise log an
error and `sys.exit(1)`. -/
def mkdir_p (p : String) (w : DirWorld) : MkdirOutcome :=
  match makedirs p w with
  | Except.ok w' => MkdirOutcome.ok w' []
  | Except.error e =>
      if e = EEXIST ∧ w.isdir p then MkdirOutcome.ok w []
      else
        MkdirOutcome.exited 1
          ["Error creating path " ++ p ++ ", exiting."]

/-! ## File model (`clean_up`, `write_json`, `read_json`) -/

/-- The files of the filesystem: a map from path to content
(`none` meaning the path does not exist). -/
def FileFS : Type := String → Option (List Char)

/-- The filesystem with no files. -/
def emptyFS : FileFS := fun _ => Option.none

/-- Write `content` at path `p` (truncating `open(p, 'w')` semantics). -/
def fsWrite (p : String) (content : List Char) (fs : FileFS) : FileFS :=
  fun q => if q = p then Option.some content else fs q

/-- `os.path.exists(p)`. -/
def fsExists (p : String) (fs : FileFS) : Bool :=
  (fs p).isSome

/-- `os.remove(p)`: raises (`FileNotFoundError`, modelled as
`Except.error`) when the path does not exist. -/
def osRemove (p : String) (fs : FileFS) : Except Unit FileFS :=
  match fs p with
  | Option.none => Except.error ()
  | Option.some _ =>
      Except.ok (fun q => if q = p then Option.none else fs q)

/-- The `files` argument of `clean_up`: a single path or a list of
paths. -/
inductive PyPaths where
  | single (p : String)
  | many (ps : List String)

/-- `if not isinstance(files, list): files = [files]`. -/
def normalizePaths : PyPaths → List String
  | PyPaths.single p => [p]
  | PyPaths.many ps => ps

/-- The loop body of `clean_up` over an already-normalized list: for
each path, if it exists, log and `os.remove` it (the raising call is
threaded through `Except`, so a raise would abort the remaining
iterations, exactly as in Python). -/
def cleanUpList : List String → FileFS → Except Unit (FileFS × List String)
  | [], fs => Except.ok (fs, [])
  | f :: rest, fs =>
      if fsExists f fs then
        match osRemove f fs with
        | Except.error e => Except.error e
        | Except.ok fs' =>
            match cleanUpList rest fs' with
            | Except.error e => Except.error e
            | Except.ok (fs'', logs) =>
                Except.ok (fs'', ("Cleaning up " ++ f) :: logs)
      else
        cleanUpList rest fs

/-- `clean_up(files)`: normalize a single path to a one-element list,
then delete each path that exists, logging each deletion at verbose
level 3. -/
def clean_up (files : PyPaths) (fs : FileFS) :
    Except Unit (FileFS × List String) :=
  cleanUpList (normalizePaths files) fs

/-! ## The `json` module: serialization (`json.dumps`)

`write_json` and `read_json` delegate to the standard-library `json`
module; its behaviour is modelled here for the `PyVal` universe, with
JSON numbers restricted to integers (floating point is outside the
model).  `json.dumps` uses its defaults `ensure_ascii=True` (characters
outside printable ASCII are `\uXXXX`-escaped, with surrogate pairs
above U+FFFF) and, when called without separators, the default
separators `(', ', ': ')`. -/

/-- JSON whitespace: space, tab, newline, carriage return. -/
def isWsJson (c : Char) : Bool :=
  c = ' ' || c = '\t' || c = '\n' || c = '\r'

/-- Drop leading JSON whitespace. -/
def skipWs : List Char → List Char
  | [] => []
  | c :: rest => if isWsJson c then skipWs rest else c :: rest

/-- `n` spaces. -/
def spaces (n : Nat) : List Char :=
  List.replicate n ' '

/-- Lowercase hexadecimal digit for `n < 16`. -/
def hexDigitChar (n : Nat) : Char :=
  if n < 10 then Char.ofNat (48 + n) else Char.ofNat (87 + n)

/-- Four lowercase hex digits of `n < 0x10000`, most significant
first. -/
def hex4 (n : Nat) : List Char :=
  [hexDigitChar (n / 4096 % 16), hexDigitChar (n / 256 % 16),
   hexDigitChar (n / 16 % 16), hexDigitChar (n % 16)]

/-- Value of a hexadecimal digit (either case), if one. -/
def hexVal (c : Char) : Option Nat :=
  if 48 ≤ c.toNat ∧ c.toNat ≤ 57 then Option.some (c.toNat - 48)
  else if 97 ≤ c.toNat ∧ c.toNat ≤ 102 then Option.some (c.toNat - 87)
  else if 65 ≤ c.toNat ∧ c.toNat ≤ 70 then Option.some (c.toNat - 55)
  else Option.none

/-- Decimal digits of `n`, most significant first (fuel-bounded; any
fuel above `n` is exact). -/
def natReprAux : Nat → Nat → List Char
  | 0, _ => []
  | fuel + 1, n =>
      if n < 10 then [Char.ofNat (48 + n)]
      else natReprAux fuel (n / 10) ++ [Char.ofNat (48 + n % 10)]

/-- Decimal representation of a natural number, as Python `str`. -/
def natRepr (n : Nat) : List Char :=
  natReprAux (n + 1) n

/-- Decimal representation of an integer, as Python `str`. -/
def intRepr (n : Int) : List Char :=
  if n < 0 then '-' :: natRepr n.natAbs else natRepr n.natAbs

/-- `json.dumps` escaping of one character with `ensure_ascii=True`:
quote and backslash get two-character escapes, the five named control
characters get their short escapes, printable ASCII is kept, and
everything else becomes `\uXXXX` (a surrogate pair for characters above
U+FFFF). -/
def escapeChar (c : Char) : List Char :=
  if c = '"' then ['\\', '"']
  else if c = '\\' then ['\\', '\\']
  else if c = '\x08' then ['\\', 'b']
  else if c = '\t' then ['\\', 't']
  else if c = '\n' then ['\\', 'n']
  else if c = '\x0c' then ['\\', 'f']
  else if c = '\r' then ['\\', 'r']
  else if 32 ≤ c.toNat ∧ c.toNat ≤ 126 then [c]
  else if c.toNat < 65536 then '\\' :: 'u' :: hex4 c.toNat
  else
    let n := c.toNat - 65536
    ('\\' :: 'u' :: hex4 (55296 + n / 1024)) ++
      ('\\' :: 'u' :: hex4 (56320 + n % 1024))

/-- `json.dumps` escaping of a whole string (without the surrounding
quotes). -/
def escapeString : List Char → List Char
  | [] => []
  | c :: cs => escapeChar c ++ escapeString cs

/-- What follows an opening bracket before the first item: with
`indent=4` (pretty), a newline and the indentation of the item level;
without indent, nothing. -/
def wsOpen (p : Bool) (lvl : Nat) : List Char :=
  if p then '\n' :: spaces (4 * lvl) else []

/-- What precedes a closing bracket after the last item: with
`indent=4`, a newline and the indentation of the bracket level; without
indent, nothing. -/
def wsClose (p : Bool) (lvl : Nat) : List Char :=
  if p then '\n' :: spaces (4 * lvl) else []

/-- The item separator: `separators=(',', ': ')` with `indent=4` puts
`','` and then a newline plus indentation; the non-pretty call uses the
default item separator `', '`. -/
def itemSep (p : Bool) (lvl : Nat) : List Char :=
  if p then ',' :: '\n' :: spaces (4 * lvl) else ", ".data

mutual

/-- `json.dumps` of a value at nesting level `lvl`; `p` selects the
pretty call `json.dumps(obj, indent=4, separators=(',', ': '))` over
the plain `json.dumps(obj)`.  Both use the key separator `': '`.
Non-empty containers put their items at level `lvl + 1`; an empty
container prints inline. -/
def dumps (p : Bool) : PyVal → Nat → List Char
  | PyVal.none, _ => "null".data
  | PyVal.bool true, _ => "true".data
  | PyVal.bool false, _ => "false".data
  | PyVal.int n, _ => intRepr n
  | PyVal.str s, _ => '"' :: (escapeString s ++ ['"'])
  | PyVal.list [], _ => "[]".data
  | PyVal.list (x :: xs), lvl =>
      '[' :: (wsOpen p (lvl + 1) ++ dumpsItems p (x :: xs) (lvl + 1) ++
        wsClose p lvl ++ [']'])
  | PyVal.tuple [], _ => "[]".data
  | PyVal.tuple (x :: xs), lvl =>
      '[' :: (wsOpen p (lvl + 1) ++ dumpsItems p (x :: xs) (lvl + 1) ++
        wsClose p lvl ++ [']'])
  | PyVal.dict [], _ => "\x7b\x7d".data
  | PyVal.dict (kv :: kvs), lvl =>
      '\x7b' :: (wsOpen p (lvl + 1) ++ dumpsEntries p (kv :: kvs) (lvl + 1) ++
        wsClose p lvl ++ ['\x7d'])

/-- The items of an array, joined by the item separator. -/
def dumpsItems (p : Bool) : List PyVal → Nat → List Char
  | [], _ => []
  | [x], lvl => dumps p x lvl
  | x :: y :: ys, lvl =>
      dumps p x lvl ++ (itemSep p lvl ++ dumpsItems p (y :: ys) lvl)

/-- The entries of an object, `"key": value` joined by the item
separator. -/
def dumpsEntries (p : Bool) : List (List Char × PyVal) → Nat → List Char
  | [], _ => []
  | [(k, v)], lvl =>
      '"' :: (escapeString k ++ ('"' :: ':' :: ' ' :: dumps p v lvl))
  | (k, v) :: kv :: kvs, lvl =>
      ('"' :: (escapeString k ++ ('"' :: ':' :: ' ' :: dumps p v lvl))) ++
        (itemSep p lvl ++ dumpsEntries p (kv :: kvs) lvl)

end

/-- The serialized text `write_json` produces: the pretty call when
`print_pretty`, the plain call otherwise. -/
def json_dumps (p : Bool) (v : PyVal) : List Char :=
  dumps p v 0

/-! ## The `json` module: parsing (`json.load`)

A recursive-descent model of the strict CPython JSON decoder, on the
same value universe.  `Option.none` stands for a raised
`JSONDecodeError`.  Model restrictions (all irrelevant to serializer
output): numbers with a fractional part or exponent (floats) and lone
surrogate escapes are outside the model and parse to `none`. -/

/-- Decoding of a single-character backslash escape. -/
def escDecode (c : Char) : Option Char :=
  if c = '"' then Option.some '"'
  else if c = '\\' then Option.some '\\'
  else if c = '/' then Option.some '/'
  else if c = 'b' then Option.some '\x08'
  else if c = 'f' then Option.some '\x0c'
  else if c = 'n' then Option.some '\n'
  else if c = 'r' then Option.some '\r'
  else if c = 't' then Option.some '\t'
  else Option.none

/-- Read four hex digits. -/
def parseHex4 : List Char → Option (Nat × List Char)
  | h1 :: h2 :: h3 :: h4 :: rest =>
      match hexVal h1, hexVal h2, hexVal h3, hexVal h4 with
      | Option.some a, Option.some b, Option.some c, Option.some d =>
          Option.some (4096 * a + 256 * b + 16 * c + d, rest)
      | _, _, _, _ => Option.none
  | _ => Option.none

/-- Scan a string body after the opening quote: raw characters (raw
control characters are rejected in strict mode), backslash escapes, and
`\uXXXX` escapes with surrogate-pair combination.  Fuel-bounded; each
step consumes at least one character, so any fuel above the input
length is exact. -/
def parseStrAux : Nat → List Char → Option (List Char × List Char)
  | 0, _ => Option.none
  | fuel + 1, s =>
      match s with
      | [] => Option.none
      | c :: rest =>
          if c = '"' then Option.some ([], rest)
          else if c = '\\' then
            match rest with
            | 'u' :: r2 =>
                match parseHex4 r2 with
                | Option.none => Option.none
                | Option.some (n, r3) =>
                    if 55296 ≤ n ∧ n ≤ 56319 then
                      match r3 with
                      | '\\' :: 'u' :: r4 =>
                          match parseHex4 r4 with
                          | Option.none => Option.none
                          | Option.some (m, r5) =>
                              if 56320 ≤ m ∧ m ≤ 57343 then
                                (parseStrAux fuel r5).map (fun q =>
                                  (Char.ofNat
                                    (65536 + (n - 55296) * 1024 +
                                      (m - 56320)) :: q.1, q.2))
                              else Option.none
                      | _ => Option.none
                    else if 56320 ≤ n ∧ n ≤ 57343 then Option.none
                    else
                      (parseStrAux fuel r3).map (fun q =>
                        (Char.ofNat n :: q.1, q.2))
            | e :: r2 =>
                match escDecode e with
                | Option.some c' =>
                    (parseStrAux fuel r2).map (fun q => (c' :: q.1, q.2))
                | Option.none => Option.none
            | [] => Option.none
          else if c.toNat < 32 then Option.none
          else (parseStrAux fuel rest).map (fun q => (c :: q.1, q.2))

/-- Parse a string body after the opening quote. -/
def parseStringBody (s : List Char) : Option (List Char × List Char) :=
  parseStrAux (s.length + 1) s

/-- Numeric value of a digit run (most significant first). -/
def digitsToNat (ds : List Char) : Nat :=
  ds.foldl (fun a c => 10 * a + (c.toNat - 48)) 0

/-- Does the input start with a digit? -/
def startsDigit : List Char → Bool
  | [] => false
  | c :: _ => c.isDigit

/-- Parse the integer part of the number grammar
`(0|[1-9]\d*)`: a single `0`, or a maximal digit run not starting
with `0`. -/
def parseUInt : List Char → Option (Nat × List Char)
  | [] => Option.none
  | c :: rest =>
      if c = '0' then Option.some (0, rest)
      else if c.isDigit then
        Option.some (digitsToNat (c :: rest.takeWhile Char.isDigit),
          rest.dropWhile Char.isDigit)
      else Option.none

/-- Does an exponent `[eE][-+]?\d+` start here (after the `e`/`E`)? -/
def expTail : List Char → Bool
  | [] => false
  | c :: t => if c = '+' ∨ c = '-' then startsDigit t else c.isDigit

/-- Does a fractional part `\.\d+` or an exponent start here?  If so
the number is a float, which is outside the model. -/
def hasFracOrExp : List Char → Bool
  | [] => false
  | c :: t =>
      if c = '.' then startsDigit t
      else if c = 'e' ∨ c = 'E' then expTail t
      else false

/-- Parse a JSON number per `-?(0|[1-9]\d*)(\.\d+)?([eE][-+]?\d+)?`,
restricted to integers (a match with a fractional part or exponent is a
float and parses to `none` in this model). -/
def parseNumber : List Char → Option (Int × List Char)
  | [] => Option.none
  | c :: rest =>
      if c = '-' then
        match parseUInt rest with
        | Option.none => Option.none
        | Option.some (n, r) =>
            if hasFracOrExp r then Option.none
            else Option.some (-(n : Int), r)
      else
        match parseUInt (c :: rest) with
        | Option.none => Option.none
        | Option.some (n, r) =>
            if hasFracOrExp r then Option.none
            else Option.some ((n : Int), r)

/-- Insert a key into a Python dict (as an ordered association list):
an existing key keeps its position and gets the new value, a new key is
appended. -/
def dictUpd : List (List Char × PyVal) → List Char → PyVal →
    List (List Char × PyVal)
  | [], k, v => [(k, v)]
  | (k', v') :: rest, k, v =>
      if k' = k then (k', v) :: rest else (k', v') :: dictUpd rest k v

/-- Build a Python dict from parsed member pairs (`dict(pairs)`
semantics: last value wins, first position kept). -/
def pyDictOfPairsAux (acc : List (List Char × PyVal)) :
    List (List Char × PyVal) → List (List Char × PyVal)
  | [] => acc
  | (k, v) :: rest => pyDictOfPairsAux (dictUpd acc k v) rest

/-- The dict a parsed JSON object denotes. -/
def pyDictOfPairs (ps : List (List Char × PyVal)) :
    List (List Char × PyVal) :=
  pyDictOfPairsAux [] ps

mutual

/-- Parse a JSON value at the head of the input (whitespace already
skipped), returning the value and the remaining input.  The fuel only
bounds the recursion depth of the decoder; `json_loads` passes fuel
ample for its input. -/
def parseValue : Nat → List Char → Option (PyVal × List Char)
  | 0, _ => Option.none
  | fuel + 1, s =>
      match s with
      | [] => Option.none
      | c :: rest =>
          if c = '"' then
            (parseStringBody rest).map (fun q => (PyVal.str q.1, q.2))
          else if c = '[' then parseArrayBody fuel (skipWs rest)
          else if c = '\x7b' then parseObjBody fuel (skipWs rest)
          else if c = 'n' then
            match rest with
            | 'u' :: 'l' :: 'l' :: r => Option.some (PyVal.none, r)
            | _ => Option.none
          else if c = 't' then
            match rest with
            | 'r' :: 'u' :: 'e' :: r => Option.some (PyVal.bool true, r)
            | _ => Option.none
          else if c = 'f' then
            match rest with
            | 'a' :: 'l' :: 's' :: 'e' :: r =>
                Option.some (PyVal.bool false, r)
            | _ => Option.none
          else (parseNumber (c :: rest)).map (fun q => (PyVal.int q.1, q.2))

/-- After `[` and whitespace: either `]` or the element list. -/
def parseArrayBody : Nat → List Char → Option (PyVal × List Char)
  | 0, _ => Option.none
  | fuel + 1, s =>
      match s with
      | [] => Option.none
      | c :: rest =>
          if c = ']' then Option.some (PyVal.list [], rest)
          else
            (parseElems fuel (c :: rest)).map (fun q =>
              (PyVal.list q.1, q.2))

/-- Elements of a non-empty array: value, then `,` (and more elements)
or `]`, skipping whitespace around tokens. -/
def parseElems : Nat → List Char → Option (List PyVal × List Char)
  | 0, _ => Option.none
  | fuel + 1, s =>
      match parseValue fuel s with
      | Option.none => Option.none
      | Option.some (v, r) =>
          match skipWs r with
          | [] => Option.none
          | c :: r2 =>
              if c = ',' then
                (parseElems fuel (skipWs r2)).map (fun q => (v :: q.1, q.2))
              else if c = ']' then Option.some ([v], r2)
              else Option.none

/-- After `{` and whitespace: either `}` or the member list. -/
def parseObjBody : Nat → List Char → Option (PyVal × List Char)
  | 0, _ => Option.none
  | fuel + 1, s =>
      match s with
      | [] => Option.none
      | c :: rest =>
          if c = '\x7d' then Option.some (PyVal.dict [], rest)
          else
            (parseMembers fuel (c :: rest)).map (fun q =>
              (PyVal.dict (pyDictOfPairs q.1), q.2))

/-- Members of a non-empty object: `"key"`, `:`, value, then `,` (and
more members) or `}`, skipping whitespace around tokens. -/
def parseMembers : Nat → List Char →
    Option (List (List Char × PyVal) × List Char)
  | 0, _ => Option.none
  | fuel + 1, s =>
      match s with
      | [] => Option.none
      | c0 :: r0 =>
          if c0 = '"' then
            match parseStringBody r0 with
            | Option.none => Option.none
            | Option.some (k, r1) =>
                match skipWs r1 with
                | [] => Option.none
                | c1 :: r2 =>
                    if c1 = ':' then
                      match parseValue fuel (skipWs r2) with
                      | Option.none => Option.none
                      | Option.some (v, r3) =>
                          match skipWs r3 with
                          | [] => Option.none
                          | c2 :: r4 =>
                              if c2 = ',' then
                                (parseMembers fuel (skipWs r4)).map (fun q =>
                                  ((k, v) :: q.1, q.2))
                              else if c2 = '\x7d' then
                                Option.some ([(k, v)], r4)
                              else Option.none
                    else Option.none
          else Option.none

end

/-- The characters that may legitimately follow a serialized value
inside a JSON document: a separator, a closing bracket, the newline of
an indented layout, or the end of the input.  (What matters for the
number grammar is that none of these is a digit, a dot or an `e`.) -/
def delimOk : List Char → Bool
  | [] => true
  | c :: _ => c = ',' || c = ']' || c = '\x7d' || c = '\n'

/-- `json.loads` / `json.load`: skip leading whitespace, parse one
value, skip trailing whitespace, and require the input to be exhausted.
The fuel `3 * length + 3` exceeds the decoder's recursion depth on any
input (each level of nesting consumes at least one input character and
at most three fuel units). -/
def json_loads (s : List Char) : Option PyVal :=
  match parseValue (3 * s.length + 3) (skipWs s) with
  | Option.some (v, rest) =>
      if skipWs rest = [] then Option.some v else Option.none
  | Option.none => Option.none

/-! ## `write_json` and `read_json` -/

/-- The `mode` argument of the file-writing helpers. -/
inductive FileMode where
  | w
  | a
deriving DecidableEq

/-- `write_json(json_obj, filename, mode, print_pretty)`: serialize
(pretty printing by default), write the text to the file opened with
`mode` (truncate for `'w'`, append for `'a'`), and return `filename`.
Returns the filename together with the updated filesystem. -/
def write_json (json_obj : PyVal) (filename : String) (mode : FileMode)
    (print_pretty : Bool) (fs : FileFS) : String × FileFS :=
  let text := json_dumps print_pretty json_obj
  let content :=
    match mode with
    | FileMode.w => text
    | FileMode.a => ((fs filename).getD []) ++ text
  (filename, fsWrite filename content fs)

/-- `read_json(filename)`: open the file and parse its contents as
JSON.  `none` models the raised error, for a missing file as well as
for malformed contents. -/
def read_json (filename : String) (fs : FileFS) : Option PyVal :=
  match fs filename with
  | Option.none => Option.none
  | Option.some content => json_loads content

/-! ## Auxiliary predicates and measures for the round-trip law -/

/-- Pairwise distinct keys. -/
def keysDistinct : List (List Char) → Bool
  | [] => true
  | k :: ks => !(ks.contains k) && keysDistinct ks

mutual

/-- The values whose JSON text denotes them back: no tuples anywhere
(a tuple serializes as a JSON array, which parses back as a list), and
every dict has pairwise distinct keys (automatic for a genuine Python
dict). -/
def jsonable : PyVal → Bool
  | PyVal.none => true
  | PyVal.bool _ => true
  | PyVal.int _ => true
  | PyVal.str _ => true
  | PyVal.list xs => jsonableList xs
  | PyVal.tuple _ => false
  | PyVal.dict kvs => keysDistinct (kvs.map Prod.fst) && jsonableKVs kvs

/-- All list elements are `jsonable`. -/
def jsonableList : List PyVal → Bool
  | [] => true
  | x :: xs => jsonable x && jsonableList xs

/-- All dict values are `jsonable`. -/
def jsonableKVs : List (List Char × PyVal) → Bool
  | [] => true
  | (_, v) :: kvs => jsonable v && jsonableKVs kvs

end

mutual

/-- Fuel bound for the decoder on a value's serialization (each
recursion level and each container item costs a bounded amount). -/
def sizePy : PyVal → Nat
  | PyVal.none => 1
  | PyVal.bool _ => 1
  | PyVal.int _ => 1
  | PyVal.str _ => 1
  | PyVal.list xs => sizeItems xs + 2
  | PyVal.tuple xs => sizeItems xs + 2
  | PyVal.dict kvs => sizeEntries kvs + 2

/-- Fuel bound for an element list. -/
def sizeItems : List PyVal → Nat
  | [] => 0
  | x :: xs => sizePy x + 1 + sizeItems xs

/-- Fuel bound for a member list. -/
def sizeEntries : List (List Char × PyVal) → Nat
  | [] => 0
  | (_, v) :: kvs => sizePy v + 1 + sizeEntries kvs

end

/-! ## Spec-side pretty printer (for the `write_json` pretty contract)

An independent formulation of 4-space-indented JSON text, by lines:
each item of a non-empty container stands on its own line, indented
four spaces per nesting level, with the item separator `','` at the end
of the line and the key separator `': '` between a key and its
value. -/

/-- Put each item text on its own line at indentation `4 * lvl`,
separating items with a trailing `','`. -/
def joinIndented : List (List Char) → Nat → List Char
  | [], _ => []
  | [t], lvl => spaces (4 * lvl) ++ t
  | t :: u :: ts, lvl =>
      spaces (4 * lvl) ++ t ++ (',' :: '\n' :: joinIndented (u :: ts) lvl)

mutual

/-- The text `json.dumps(v, indent=4, separators=(',', ': '))` should
produce, formulated by lines. -/
def prettySpec : PyVal → Nat → List Char
  | PyVal.none, _ => "null".data
  | PyVal.bool true, _ => "true".data
  | PyVal.bool false, _ => "false".data
  | PyVal.int n, _ => intRepr n
  | PyVal.str s, _ => '"' :: (escapeString s ++ ['"'])
  | PyVal.list [], _ => "[]".data
  | PyVal.list (x :: xs), lvl =>
      '[' :: '\n' ::
        (joinIndented (prettyTexts (x :: xs) (lvl + 1)) (lvl + 1) ++
          ('\n' :: (spaces (4 * lvl) ++ [']'])))
  | PyVal.tuple [], _ => "[]".data
  | PyVal.tuple (x :: xs), lvl =>
      '[' :: '\n' ::
        (joinIndented (prettyTexts (x :: xs) (lvl + 1)) (lvl + 1) ++
          ('\n' :: (spaces (4 * lvl) ++ [']'])))
  | PyVal.dict [], _ => "\x7b\x7d".data
  | PyVal.dict (kv :: kvs), lvl =>
      '\x7b' :: '\n' ::
        (joinIndented (prettyEntryTexts (kv :: kvs) (lvl + 1)) (lvl + 1) ++
          ('\n' :: (spaces (4 * lvl) ++ ['\x7d'])))

/-- The item texts of an array, each rendered at level `lvl`. -/
def prettyTexts : List PyVal → Nat → List (List Char)
  | [], _ => []
  | x :: xs, lvl => prettySpec x lvl :: prettyTexts xs lvl

/-- The entry texts of an object: `"key": value`, each rendered at
level `lvl`. -/
def prettyEntryTexts : List (List Char × PyVal) → Nat → List (List Char)
  | [], _ => []
  | (k, v) :: kvs, lvl =>
      ('"' :: (escapeString k ++ ('"' :: ':' :: ' ' :: prettySpec v lvl))) ::
        prettyEntryTexts kvs lvl

end

/-! ## Repository cloner (`download_repo`) -/

/-- `os.system` is modelled as an oracle from the shell command line to
its exit status. -/
def ShellOracle : Type := String → Int

/-- `download_repo(repo_url, destination, commit)`: build the shell
line `git clone <url> <destination>`, run it through `os.system` with
the exit status discarded, and return `destination`.  The returned pair
records the shell lines executed, so that the theorems can speak about
the effect as well as the return value. -/
def download_repo (repo_url destination : String)
    (commit : Option String) (sh : ShellOracle) : String × List String :=
  let command := "git clone " ++ repo_url ++ " " ++ destination
  let _rc := sh command
  (destination, [command])

/-! # Theorems -/

/-! ## Name sanitizer (C2) -/

theorem filter_map_eq_sanitizeSpec (name sc : List Char) :
    (name.filter (fun e => pyIsAlnum e || sc.contains e)).map pyLower =
      sanitizeSpec name sc := by
  induction name with
  | nil => rfl
  | cons c cs ih =>
      simp only [sanitizeSpec, List.filter_cons]
      cases h : pyIsAlnum c || sc.contains c
      · rw [if_neg (by simp [h]), if_neg (by simp [h])]
        exact ih
      · rw [if_pos (by simp [h]), if_pos (by simp [h])]
        simp only [List.map_cons, ih]

/-- Claim C2: `format_container_name(name, special_characters)` returns
exactly the lower-cased forms of those characters of `name` that are
alphanumeric or members of the allowed set, in their original order,
with every other character dropped; in particular
`format_container_name("My-Container_1!", ['-','_'])` is
`"my-container_1"`. -/
theorem format_container_name_correct :
    (∀ (name sc : List Char),
        format_container_name name (Option.some sc) = sanitizeSpec name sc)
    ∧ (∀ (name : List Char),
        format_container_name name Option.none = sanitizeSpec name [])
    ∧ format_container_name ("My-Container_1!".data) (Option.some ['-', '_'])
        = "my-container_1".data :=
  ⟨fun name sc => filter_map_eq_sanitizeSpec name sc,
   fun name => filter_map_eq_sanitizeSpec name [],
   by decide⟩

/-! ## Process runner (C5, C10) and installation checker (C4) -/

/-- Claim C5: `run_command(cmd, sudo)` executes the vector with a
`sudo` prefix prepended exactly when `sudo` is `True`; on successful
spawn it returns the record of the combined output and the process's
exit status, and a spawn failure propagates to the caller. -/
theorem run_command_contract :
    ∀ (cmd : List String) (os : ProcOracle) (out : String) (rc : Int),
      (os ("sudo" :: cmd) = Option.some (out, rc) →
          run_command cmd (PyVal.bool true) os =
            Except.ok { message := out, return_code := rc })
      ∧ (os cmd = Option.some (out, rc) →
          run_command cmd (PyVal.bool false) os =
            Except.ok { message := out, return_code := rc })
      ∧ (os ("sudo" :: cmd) = Option.none →
          run_command cmd (PyVal.bool true) os =
            Except.error SpawnErr.fileNotFound)
      ∧ (os cmd = Option.none →
          run_command cmd (PyVal.bool false) os =
            Except.error SpawnErr.fileNotFound) := by
  intro cmd os out rc
  refine ⟨fun h => ?_, fun h => ?_, fun h => ?_, fun h => ?_⟩ <;>
    simp [run_command, effectiveCmd, h]

theorem run_command_contract_witness :
    run_command ["ls"] (PyVal.bool true)
        (fun c => if c = ["sudo", "ls"] then Option.some ("out", 0)
          else Option.none) =
      Except.ok { message := "out", return_code := 0 } :=
  (run_command_contract ["ls"]
    (fun c => if c = ["sudo", "ls"] then Option.some ("out", 0)
      else Option.none) "out" 0).1 (by decide)

/-- Claim C10: the privilege-escalation prefix is prepended only when
the `sudo` argument is the boolean `True` (identity test); any other
value — such as the software-name string that `check_install` passes —
leaves the command vector unchanged, so `check_install`'s probe runs
unelevated. -/
theorem run_command_sudo_only_bool_true :
    (∀ (cmd : List String) (v : PyVal),
        effectiveCmd cmd v = "sudo" :: cmd ↔ v = PyVal.bool true)
    ∧ (∀ (cmd : List String) (v : PyVal),
        v ≠ PyVal.bool true → effectiveCmd cmd v = cmd)
    ∧ (∀ (sw : String) (os : ProcOracle),
        run_command [sw, "--version"] (PyVal.str sw.data) os =
          match os [sw, "--version"] with
          | Option.none => Except.error SpawnErr.fileNotFound
          | Option.some pr =>
              Except.ok { message := pr.1, return_code := pr.2 }) := by
  have hne : ∀ (cmd : List String) (v : PyVal),
      v ≠ PyVal.bool true → effectiveCmd cmd v = cmd := by
    intro cmd v hv
    cases v with
    | bool b => cases b with
        | true => exact absurd rfl hv
        | false => rfl
    | none => rfl
    | int n => rfl
    | str s => rfl
    | list xs => rfl
    | tuple xs => rfl
    | dict kvs => rfl
  refine ⟨fun cmd v => ⟨fun h => ?_, fun h => by subst h; rfl⟩, hne,
    fun sw os => ?_⟩
  · by_contra hv
    rw [hne cmd v hv] at h
    exact List.cons_ne_self "sudo" cmd h.symm
  · have h1 : effectiveCmd [sw, "--version"] (PyVal.str sw.data) =
        [sw, "--version"] := rfl
    unfold run_command
    rw [h1]
    cases os [sw, "--version"] with
    | none => rfl
    | some pr => rfl

theorem run_command_sudo_only_bool_true_witness :
    effectiveCmd ["singularity", "--version"]
        (PyVal.str ("singularity".data)) = ["singularity", "--version"] :=
  run_command_sudo_only_bool_true.2.1 ["singularity", "--version"]
    (PyVal.str ("singularity".data)) (fun h => PyVal.noConfusion h)

/-- Claim C4: `check_install(software)` returns `False` exactly when
spawning the version query raises (executable missing), and `True` for
every invocation that spawns, regardless of the exit code; in
particular it returns `False` for a binary the oracle cannot spawn. -/
theorem check_install_contract :
    (∀ (software : Option String) (quiet : Bool) (os : ProcOracle),
        (check_install software quiet os).1 = false ↔
          os [software.getD "singularity", "--version"] = Option.none)
    ∧ (∀ (quiet : Bool) (os : ProcOracle),
        os ["definitely-not-a-real-binary-xyz", "--version"] =
            Option.none →
          (check_install (Option.some "definitely-not-a-real-binary-xyz")
              quiet os).1 = false) := by
  have main : ∀ (software : Option String) (quiet : Bool)
      (os : ProcOracle),
      (check_install software quiet os).1 = false ↔
        os [software.getD "singularity", "--version"] = Option.none := by
    intro software quiet os
    cases h : os [software.getD "singularity", "--version"] with
    | none => simp [check_install, run_command, effectiveCmd, h]
    | some pr =>
        obtain ⟨out, rc⟩ := pr
        simp [check_install, run_command, effectiveCmd, h,
          apply_ite Prod.fst]
  exact ⟨main, fun quiet os h =>
    (main (Option.some "definitely-not-a-real-binary-xyz") quiet os).2 h⟩

theorem check_install_contract_witness :
    (check_install (Option.some "definitely-not-a-real-binary-xyz") true
        (fun _ => Option.none)).1 = false :=
  check_install_contract.2 true (fun _ => Option.none) rfl

/-! ## Directory creation (C6) -/

/-- Claim C6: `mkdir_p(p)` returns normally both when creation succeeds
and when the path already exists as a directory (so two successive
calls on a fresh path both succeed and leave one directory at `p`, the
rest of the world unchanged); any other creation failure logs an error
and terminates the process with exit code 1. -/
theorem mkdir_p_contract :
    (∀ (p : String) (w : DirWorld), w.isdir p = true →
        mkdir_p p w = MkdirOutcome.ok w [])
    ∧ (∀ (p : String) (w : DirWorld),
        w.isdir p = false → w.isfile p = false → w.osErr p = Option.none →
          ∃ w', mkdir_p p w = MkdirOutcome.ok w' [] ∧
            w'.isdir p = true ∧
            mkdir_p p w' = MkdirOutcome.ok w' [] ∧
            w'.isfile = w.isfile ∧
            (∀ q, q ≠ p → w'.isdir q = w.isdir q))
    ∧ (∀ (p : String) (w : DirWorld),
        w.isdir p = false → w.isfile p = true →
          mkdir_p p w = MkdirOutcome.exited 1
            ["Error creating path " ++ p ++ ", exiting."])
    ∧ (∀ (p : String) (w : DirWorld) (e : Nat),
        w.isdir p = false → w.isfile p = false →
          w.osErr p = Option.some e →
          mkdir_p p w = MkdirOutcome.exited 1
            ["Error creating path " ++ p ++ ", exiting."]) := by
  refine ⟨fun p w h => ?_, fun p w h1 h2 h3 => ?_, fun p w h1 h2 => ?_,
    fun p w e h1 h2 h3 => ?_⟩
  · unfold mkdir_p makedirs
    rw [h]
    simp [h]
  · refine ⟨{ w with isdir := fun q => q = p || w.isdir q }, ?_, ?_, ?_,
      rfl, ?_⟩
    · unfold mkdir_p makedirs
      rw [h1, h2, h3]
      simp
    · simp
    · unfold mkdir_p makedirs
      simp [h1]
    · intro q hq
      simp [hq]
  · unfold mkdir_p makedirs
    rw [h1, h2]
    simp [h1]
  · unfold mkdir_p makedirs
    rw [h1, h2, h3]
    simp [h1]

theorem mkdir_p_contract_witness :
    ∃ w', mkdir_p "d"
        { isdir := fun _ => false, isfile := fun _ => false,
          osErr := fun _ => Option.none } = MkdirOutcome.ok w' [] ∧
      w'.isdir "d" = true ∧
      mkdir_p "d" w' = MkdirOutcome.ok w' [] ∧
      w'.isfile = (fun (_ : String) => false) ∧
      (∀ q, q ≠ "d" → w'.isdir q = false) :=
  mkdir_p_contract.2.1 "d"
    { isdir := fun _ => false, isfile := fun _ => false,
      osErr := fun _ => Option.none } rfl rfl rfl

/-! ## Cleanup helper (C7) -/

theorem cleanUpList_ok (ps : List String) (fs : FileFS) :
    ∃ r, cleanUpList ps fs = Except.ok r ∧
      ∀ q, r.1 q = if ps.contains q then Option.none else fs q := by
  induction ps generalizing fs with
  | nil => exact ⟨(fs, []), rfl, fun q => by simp⟩
  | cons f rest ih =>
      by_cases hf : fsExists f fs = true
      · have hsome : ∃ c, fs f = Option.some c := by
          unfold fsExists at hf
          cases h : fs f with
          | none => rw [h] at hf; simp at hf
          | some c => exact ⟨c, rfl⟩
        obtain ⟨c, hc⟩ := hsome
        have hrem : osRemove f fs =
            Except.ok (fun q => if q = f then Option.none else fs q) := by
          unfold osRemove
          rw [hc]
        obtain ⟨r, hr, hrq⟩ := ih (fun q => if q = f then Option.none else fs q)
        refine ⟨(r.1, ("Cleaning up " ++ f) :: r.2), ?_, ?_⟩
        · simp only [cleanUpList, hf, hrem, hr, if_true]
        · intro q
          rw [hrq q]
          by_cases hq : q = f
          · subst hq
            simp
          · simp [hq, List.contains_cons, Ne.symm hq]
      · have hnone : fs f = Option.none := by
          unfold fsExists at hf
          cases h : fs f with
          | none => rfl
          | some c => rw [h] at hf; simp at hf
        obtain ⟨r, hr, hrq⟩ := ih fs
        refine ⟨r, ?_, ?_⟩
        · simp only [cleanUpList, hf, hr, if_false]
          simp
        · intro q
          rw [hrq q]
          by_cases hq : q = f
          · subst hq
            simp [hnone]
          · simp [hq, List.contains_cons, Ne.symm hq]

/-- Claim C7: `clean_up` accepts a single path or a list of paths
(a single path is normalized to a one-element list); it deletes every
listed path that exists and silently skips the rest, never raising —
in particular `clean_up(['a.txt', 'nonexistent.txt'])` removes `a.txt`
and does not raise for the missing file. -/
theorem clean_up_contract :
    (∀ (files : PyPaths) (fs : FileFS),
        ∃ r, clean_up files fs = Except.ok r ∧
          ∀ q, r.1 q =
            if (normalizePaths files).contains q then Option.none
            else fs q)
    ∧ (∀ (p : String) (fs : FileFS),
        clean_up (PyPaths.single p) fs = clean_up (PyPaths.many [p]) fs)
    ∧ (∃ r, clean_up (PyPaths.many ["a.txt", "nonexistent.txt"])
          (fsWrite "a.txt" ['x'] emptyFS) = Except.ok r ∧
        r.1 "a.txt" = Option.none ∧
        r.1 "nonexistent.txt" = Option.none ∧
        r.2 = ["Cleaning up a.txt"]) := by
  refine ⟨fun files fs => cleanUpList_ok (normalizePaths files) fs,
    fun p fs => rfl, ?_⟩
  refine ⟨(fun q => if q = "a.txt" then Option.none
    else fsWrite "a.txt" ['x'] emptyFS q, ["Cleaning up a.txt"]), ?_, ?_, ?_, ?_⟩
  · rfl
  · simp
  · simp [fsWrite, emptyFS]
  · rfl

/-! ## Repository cloner (C8) -/

/-- Claim C8: `download_repo(url, destination, commit)` returns
`destination` unconditionally — whatever exit status the shell reports
for the clone — and the `commit` parameter has no effect: the function's
result and its executed shell line are identical for any two commit
arguments (no checkout is performed). -/
theorem download_repo_contract :
    ∀ (url dest : String) (c1 c2 : Option String) (sh1 sh2 : ShellOracle),
      (download_repo url dest c1 sh1).1 = dest ∧
      download_repo url dest c1 sh1 = download_repo url dest c2 sh2 ∧
      (download_repo url dest c1 sh1).2 =
        ["git clone " ++ url ++ " " ++ dest] :=
  fun _ _ _ _ _ _ => ⟨rfl, rfl, rfl⟩

/-! ## URI normalizer (C3) -/

theorem firstOccur_some (pat s : List Char) (i : Nat)
    (h : firstOccur pat s = Option.some i) :
    pat.isPrefixOf (s.drop i) = true ∧
      ∀ j, j < i → pat.isPrefixOf (s.drop j) = false := by
  induction s generalizing i with
  | nil =>
      unfold firstOccur at h
      by_cases hp : pat.isPrefixOf [] = true
      · rw [if_pos hp] at h
        cases h
        exact ⟨hp, fun j hj => absurd hj (Nat.not_lt_zero j)⟩
      · rw [if_neg hp] at h
        cases h
  | cons c t ih =>
      unfold firstOccur at h
      by_cases hp : pat.isPrefixOf (c :: t) = true
      · rw [if_pos hp] at h
        cases h
        exact ⟨hp, fun j hj => absurd hj (Nat.not_lt_zero j)⟩
      · rw [if_neg hp] at h
        cases hft : firstOccur pat t with
        | none => rw [hft] at h; cases h
        | some i' =>
            rw [hft] at h
            simp at h
            subst h
            obtain ⟨h1, h2⟩ := ih i' hft
            refine ⟨h1, fun j hj => ?_⟩
            cases j with
            | zero => exact Bool.eq_false_iff.mpr hp
            | succ k =>
                simp only [List.drop_succ_cons]
                exact h2 k (Nat.lt_of_succ_lt_succ hj)

theorem firstOccur_none (pat s : List Char)
    (h : firstOccur pat s = Option.none) :
    ∀ j, pat.isPrefixOf (s.drop j) = false := by
  induction s with
  | nil =>
      intro j
      unfold firstOccur at h
      by_cases hp : pat.isPrefixOf [] = true
      · rw [if_pos hp] at h; cases h
      · rw [List.drop_nil]
        exact Bool.eq_false_iff.mpr hp
  | cons c t ih =>
      intro j
      unfold firstOccur at h
      by_cases hp : pat.isPrefixOf (c :: t) = true
      · rw [if_pos hp] at h; cases h
      · rw [if_neg hp] at h
        have ht : firstOccur pat t = Option.none := by
          cases hft : firstOccur pat t with
          | none => rfl
          | some i' => rw [hft] at h; cases h
        cases j with
        | zero => exact Bool.eq_false_iff.mpr hp
        | succ k =>
            rw [List.drop_succ_cons]
            exact ih ht k

theorem firstOccur_nil (pat : List Char) (hpat : pat ≠ []) :
    firstOccur pat [] = Option.none := by
  unfold firstOccur
  rw [if_neg]
  intro hp
  exact hpat (List.prefix_nil.mp (List.isPrefixOf_iff_prefix.mp hp))

theorem pyRemoveAux_nil (pat : List Char) (fuel : Nat) :
    pyRemoveAux fuel [] pat = [] := by
  cases fuel <;> rfl

theorem pyRemoveAux_no_occur (pat : List Char) :
    ∀ (s : List Char) (fuel : Nat), firstOccur pat s = Option.none →
      pyRemoveAux fuel s pat = s := by
  intro s
  induction s with
  | nil => intro fuel _; exact pyRemoveAux_nil pat fuel
  | cons c t ih =>
      intro fuel h
      unfold firstOccur at h
      by_cases hp : pat.isPrefixOf (c :: t) = true
      · rw [if_pos hp] at h; cases h
      · rw [if_neg hp] at h
        have ht : firstOccur pat t = Option.none := by
          cases hft : firstOccur pat t with
          | none => rfl
          | some i' => rw [hft] at h; cases h
        cases fuel with
        | zero => rfl
        | succ f =>
            simp only [pyRemoveAux]
            rw [if_neg hp]
            rw [ih f ht]

theorem pyRemoveAux_fuel (pat : List Char) (hpat : pat ≠ []) :
    ∀ (n : Nat) (s : List Char), s.length ≤ n →
      ∀ fuel1 fuel2, s.length ≤ fuel1 → s.length ≤ fuel2 →
        pyRemoveAux fuel1 s pat = pyRemoveAux fuel2 s pat := by
  intro n
  induction n with
  | zero =>
      intro s hs fuel1 fuel2 _ _
      have hnil : s = [] := List.eq_nil_of_length_eq_zero (Nat.le_zero.mp hs)
      subst hnil
      rw [pyRemoveAux_nil, pyRemoveAux_nil]
  | succ n ih =>
      intro s hs fuel1 fuel2 h1 h2
      cases s with
      | nil => rw [pyRemoveAux_nil, pyRemoveAux_nil]
      | cons c t =>
          have hlen : (c :: t).length = t.length + 1 := rfl
          cases fuel1 with
          | zero => rw [hlen] at h1; exact absurd h1 (by omega)
          | succ f1 =>
              cases fuel2 with
              | zero => rw [hlen] at h2; exact absurd h2 (by omega)
              | succ f2 =>
                  simp only [pyRemoveAux]
                  by_cases hp : pat.isPrefixOf (c :: t) = true
                  · rw [if_pos hp, if_pos hp]
                    have hppos : 1 ≤ pat.length :=
                      List.length_pos.mpr hpat
                    have hdl : (List.drop pat.length (c :: t)).length =
                        (c :: t).length - pat.length := List.length_drop _ _
                    apply ih
                    · omega
                    · omega
                    · omega
                  · rw [if_neg hp, if_neg hp]
                    have htl : pyRemoveAux f1 t pat = pyRemoveAux f2 t pat := by
                      apply ih
                      · rw [hlen] at hs; omega
                      · rw [hlen] at h1; omega
                      · rw [hlen] at h2; omega
                    rw [htl]

theorem pyRemoveAux_skip (pat : List Char) (hpat : pat ≠ []) :
    ∀ (i : Nat) (s : List Char) (fuel : Nat), s.length ≤ fuel →
      firstOccur pat s = Option.some i →
      pyRemoveAux fuel s pat =
        s.take i ++ pyRemove (s.drop (i + pat.length)) pat := by
  intro i
  induction i with
  | zero =>
      intro s fuel hf h
      cases s with
      | nil => rw [firstOccur_nil pat hpat] at h; cases h
      | cons c t =>
          have hp : pat.isPrefixOf (c :: t) = true := by
            unfold firstOccur at h
            by_cases hp : pat.isPrefixOf (c :: t) = true
            · exact hp
            · rw [if_neg hp] at h
              cases hft : firstOccur pat t with
              | none => rw [hft] at h; cases h
              | some i' => rw [hft] at h; simp at h
          cases fuel with
          | zero => exact absurd hf (by simp)
          | succ f =>
              simp only [pyRemoveAux]
              rw [if_pos hp, List.take_zero, List.nil_append, Nat.zero_add]
              unfold pyRemove
              rw [if_neg hpat]
              have hppos : 1 ≤ pat.length := List.length_pos.mpr hpat
              have hdl : (List.drop pat.length (c :: t)).length =
                  (c :: t).length - pat.length := List.length_drop _ _
              have hcl : (c :: t).length = t.length + 1 := rfl
              have hfge : (List.drop pat.length (c :: t)).length ≤ f := by
                simp only [List.length_cons] at hf
                omega
              exact pyRemoveAux_fuel pat hpat
                (List.drop pat.length (c :: t)).length
                (List.drop pat.length (c :: t)) le_rfl f
                (List.drop pat.length (c :: t)).length hfge le_rfl
  | succ i ih =>
      intro s fuel hf h
      cases s with
      | nil => rw [firstOccur_nil pat hpat] at h; cases h
      | cons c t =>
          unfold firstOccur at h
          by_cases hp : pat.isPrefixOf (c :: t) = true
          · rw [if_pos hp] at h; simp at h
          · rw [if_neg hp] at h
            cases hft : firstOccur pat t with
            | none => rw [hft] at h; cases h
            | some i' =>
                rw [hft] at h
                simp at h
                have hii : i' = i := by omega
                subst hii
                cases fuel with
                | zero => exact absurd hf (by simp)
                | succ f =>
                    simp only [pyRemoveAux]
                    rw [if_neg hp]
                    rw [ih t f (by simp at hf; omega) hft]
                    rw [List.take_succ_cons, Nat.succ_add,
                      List.drop_succ_cons, List.cons_append]

theorem removeOccursAux_no_occur (pat s : List Char) (fuel : Nat)
    (h : firstOccur pat s = Option.none) :
    removeOccursAux pat fuel s = s := by
  cases fuel with
  | zero => rfl
  | succ f =>
      unfold removeOccursAux
      rw [h]

theorem removeOccursAux_fuel (pat : List Char) (hpat : pat ≠ []) :
    ∀ (n : Nat) (s : List Char), s.length ≤ n →
      ∀ fuel1 fuel2, s.length ≤ fuel1 → s.length ≤ fuel2 →
        removeOccursAux pat fuel1 s = removeOccursAux pat fuel2 s := by
  intro n
  induction n with
  | zero =>
      intro s hs fuel1 fuel2 _ _
      have hnil : s = [] := List.eq_nil_of_length_eq_zero (Nat.le_zero.mp hs)
      subst hnil
      rw [removeOccursAux_no_occur pat [] fuel1 (firstOccur_nil pat hpat),
        removeOccursAux_no_occur pat [] fuel2 (firstOccur_nil pat hpat)]
  | succ n ih =>
      intro s hs fuel1 fuel2 h1 h2
      cases hfo : firstOccur pat s with
      | none =>
          rw [removeOccursAux_no_occur pat s fuel1 hfo,
            removeOccursAux_no_occur pat s fuel2 hfo]
      | some i =>
          have hsnil : s ≠ [] := by
            intro hnil
            subst hnil
            rw [firstOccur_nil pat hpat] at hfo
            cases hfo
          have hslen : 1 ≤ s.length := List.length_pos.mpr hsnil
          have hppos : 1 ≤ pat.length := List.length_pos.mpr hpat
          cases fuel1 with
          | zero => omega
          | succ f1 =>
              cases fuel2 with
              | zero => omega
              | succ f2 =>
                  simp only [removeOccursAux, hfo]
                  have hdl : (s.drop (i + pat.length)).length =
                      s.length - (i + pat.length) := List.length_drop _ _
                  have heq : removeOccursAux pat f1 (s.drop (i + pat.length)) =
                      removeOccursAux pat f2 (s.drop (i + pat.length)) := by
                    apply ih
                    · omega
                    · omega
                    · omega
                  rw [heq]

theorem pyRemove_eq_removeOccurs (pat : List Char) (hpat : pat ≠ []) :
    ∀ (n : Nat) (s : List Char), s.length ≤ n →
      pyRemove s pat = removeOccurs pat s := by
  intro n
  induction n with
  | zero =>
      intro s hs
      have hnil : s = [] := List.eq_nil_of_length_eq_zero (Nat.le_zero.mp hs)
      subst hnil
      unfold pyRemove removeOccurs
      rw [if_neg hpat]
      rfl
  | succ n ih =>
      intro s hs
      unfold pyRemove removeOccurs
      rw [if_neg hpat]
      cases hfo : firstOccur pat s with
      | none =>
          rw [pyRemoveAux_no_occur pat s _ hfo,
            removeOccursAux_no_occur pat s _ hfo]
      | some i =>
          have hsnil : s ≠ [] := by
            intro hnil
            subst hnil
            rw [firstOccur_nil pat hpat] at hfo
            cases hfo
          have hslen : 1 ≤ s.length := List.length_pos.mpr hsnil
          have hppos : 1 ≤ pat.length := List.length_pos.mpr hpat
          rw [pyRemoveAux_skip pat hpat i s s.length le_rfl hfo]
          cases hl : s.length with
          | zero => omega
          | succ m =>
              simp only [removeOccursAux, hfo]
              have hdl : (s.drop (i + pat.length)).length =
                  s.length - (i + pat.length) := List.length_drop _ _
              have hrec : pyRemove (s.drop (i + pat.length)) pat =
                  removeOccurs pat (s.drop (i + pat.length)) := by
                apply ih
                omega
              rw [hrec]
              unfold removeOccurs
              have hinv : removeOccursAux pat (s.drop (i + pat.length)).length
                  (s.drop (i + pat.length)) =
                    removeOccursAux pat m (s.drop (i + pat.length)) := by
                apply removeOccursAux_fuel pat hpat
                  (s.drop (i + pat.length)).length _ le_rfl
                · exact le_rfl
                · omega
              rw [hinv]

/-- Claim C3: `remove_uri` removes the literal substrings `docker://`
and `shub://` wherever they occur (a global, leftmost-first substring
removal — first every `docker://`, then every `shub://` — not a strict
prefix strip); in particular the two example inputs normalize as stated
and their results contain neither scheme. -/
theorem remove_uri_correct :
    (∀ (container : List Char),
        remove_uri container =
          removeOccurs ("shub://".data)
            (removeOccurs ("docker://".data) container))
    ∧ remove_uri ("docker://library/ubuntu".data) = "library/ubuntu".data
    ∧ remove_uri ("shub://docker://x".data) = "x".data
    ∧ occursIn ("docker://".data)
        (remove_uri ("docker://library/ubuntu".data)) = false
    ∧ occursIn ("shub://".data)
        (remove_uri ("docker://library/ubuntu".data)) = false
    ∧ occursIn ("docker://".data)
        (remove_uri ("shub://docker://x".data)) = false
    ∧ occursIn ("shub://".data)
        (remove_uri ("shub://docker://x".data)) = false := by
  refine ⟨fun container => ?_, by decide, by decide, by decide, by decide,
    by decide, by decide⟩
  unfold remove_uri
  rw [pyRemove_eq_removeOccurs ("docker://".data) (by decide)
    container.length container le_rfl]
  rw [pyRemove_eq_removeOccurs ("shub://".data) (by decide)
    (removeOccurs ("docker://".data) container).length _ le_rfl]

/-! ## JSON round trip: whitespace and character lemmas -/

theorem isWsJson_iff (c : Char) :
    isWsJson c = true ↔ (c = ' ' ∨ c = '\t' ∨ c = '\n' ∨ c = '\r') := by
  simp [isWsJson, or_assoc]

theorem skipWs_cons_of_not_ws (c : Char) (s : List Char)
    (h : isWsJson c = false) : skipWs (c :: s) = c :: s := by
  simp [skipWs, h]

theorem skipWs_spaces_append (n : Nat) (s : List Char) :
    skipWs (spaces n ++ s) = skipWs s := by
  induction n with
  | zero => rfl
  | succ m ih =>
      show skipWs (List.replicate (m + 1) ' ' ++ s) = skipWs s
      rw [List.replicate_succ]
      show skipWs (' ' :: (List.replicate m ' ' ++ s)) = skipWs s
      simp only [skipWs]
      rw [if_pos (by decide)]
      exact ih

theorem skipWs_wsOpen_append (p : Bool) (lvl : Nat) (s : List Char) :
    skipWs (wsOpen p lvl ++ s) = skipWs s := by
  cases p
  · rfl
  · show skipWs ('\n' :: (spaces (4 * lvl) ++ s)) = skipWs s
    simp only [skipWs]
    rw [if_pos (by decide)]
    exact skipWs_spaces_append _ _

theorem wsClose_eq_wsOpen (p : Bool) (lvl : Nat) :
    wsClose p lvl = wsOpen p lvl := rfl

theorem isDigit_facts (c : Char) (h : c.isDigit = true) :
    isWsJson c = false ∧ c ≠ '"' ∧ c ≠ '[' ∧ c ≠ '\x7b' ∧ c ≠ 'n' ∧
      c ≠ 't' ∧ c ≠ 'f' ∧ c ≠ '-' ∧ c ≠ ']' ∧ c ≠ '\x7d' := by
  have hws : isWsJson c = false := by
    cases hwc : isWsJson c
    · rfl
    · rcases (isWsJson_iff c).mp hwc with h1 | h1 | h1 | h1 <;>
        (subst h1; exact absurd h (by decide))
  refine ⟨hws, ?_, ?_, ?_, ?_, ?_, ?_, ?_, ?_, ?_⟩ <;>
    (intro heq; rw [heq] at h; exact absurd h (by decide))

/-! ## JSON round trip: numbers -/

theorem hexVal_hexDigitChar : ∀ m, m < 16 →
    hexVal (hexDigitChar m) = Option.some m := by decide

theorem parseHex4_hex4 (n : Nat) (hn : n < 65536) (r : List Char) :
    parseHex4 (hex4 n ++ r) = Option.some (n, r) := by
  have h1 := hexVal_hexDigitChar (n / 4096 % 16) (Nat.mod_lt _ (by norm_num))
  have h2 := hexVal_hexDigitChar (n / 256 % 16) (Nat.mod_lt _ (by norm_num))
  have h3 := hexVal_hexDigitChar (n / 16 % 16) (Nat.mod_lt _ (by norm_num))
  have h4 := hexVal_hexDigitChar (n % 16) (Nat.mod_lt _ (by norm_num))
  show parseHex4 (hexDigitChar (n / 4096 % 16) :: hexDigitChar (n / 256 % 16)
    :: hexDigitChar (n / 16 % 16) :: hexDigitChar (n % 16) :: r) = _
  simp only [parseHex4, h1, h2, h3, h4, Option.some.injEq, Prod.mk.injEq,
    and_true]
  omega

theorem digitChar_isDigit : ∀ m, m < 10 →
    (Char.ofNat (48 + m)).isDigit = true := by decide

theorem digitChar_ne_zero : ∀ m, m < 10 → m ≠ 0 →
    Char.ofNat (48 + m) ≠ '0' := by decide

theorem digitChar_val : ∀ m, m < 10 →
    (Char.ofNat (48 + m)).toNat - 48 = m := by decide

theorem digitsToNat_append_singleton (l : List Char) (d : Char) :
    digitsToNat (l ++ [d]) = 10 * digitsToNat l + (d.toNat - 48) := by
  simp [digitsToNat, List.foldl_append]

theorem natReprAux_spec :
    ∀ (fuel n : Nat), n < fuel →
      ∃ c ds, natReprAux fuel n = c :: ds ∧ c.isDigit = true ∧
        (n ≠ 0 → c ≠ '0') ∧ (∀ d ∈ ds, d.isDigit = true) ∧
        digitsToNat (c :: ds) = n := by
  intro fuel
  induction fuel with
  | zero => intro n hn; omega
  | succ f ih =>
      intro n hn
      by_cases h10 : n < 10
      · refine ⟨Char.ofNat (48 + n), [], ?_, digitChar_isDigit n h10,
          fun hz => digitChar_ne_zero n h10 hz, by simp, ?_⟩
        · simp [natReprAux, h10]
        · show digitsToNat [Char.ofNat (48 + n)] = n
          simp [digitsToNat]
          exact digitChar_val n h10
      · have hdiv : n / 10 < f := by
          have h1 : n / 10 < n := Nat.div_lt_self (by omega) (by norm_num)
          omega
        obtain ⟨c, ds, hrepr, hdig, hz, hall, hval⟩ := ih (n / 10) hdiv
        refine ⟨c, ds ++ [Char.ofNat (48 + n % 10)], ?_, hdig, ?_, ?_, ?_⟩
        · rw [show natReprAux (f + 1) n =
            (if n < 10 then [Char.ofNat (48 + n)]
              else natReprAux f (n / 10) ++ [Char.ofNat (48 + n % 10)])
            from rfl]
          rw [if_neg h10, hrepr]
          rfl
        · intro _
          exact hz (by omega)
        · intro d hd
          rcases List.mem_append.mp hd with hd1 | hd1
          · exact hall d hd1
          · have : d = Char.ofNat (48 + n % 10) := List.mem_singleton.mp hd1
            subst this
            exact digitChar_isDigit (n % 10) (Nat.mod_lt _ (by norm_num))
        · show digitsToNat (c :: (ds ++ [Char.ofNat (48 + n % 10)])) = n
          rw [show c :: (ds ++ [Char.ofNat (48 + n % 10)]) =
            (c :: ds) ++ [Char.ofNat (48 + n % 10)] from rfl]
          rw [digitsToNat_append_singleton, hval,
            digitChar_val (n % 10) (Nat.mod_lt _ (by norm_num))]
          omega

theorem takeWhile_digits_append (ds rest : List Char)
    (hds : ∀ d ∈ ds, d.isDigit = true) (hrest : startsDigit rest = false) :
    (ds ++ rest).takeWhile Char.isDigit = ds ∧
      (ds ++ rest).dropWhile Char.isDigit = rest := by
  induction ds with
  | nil =>
      simp only [List.nil_append]
      cases rest with
      | nil => exact ⟨rfl, rfl⟩
      | cons c t =>
          simp only [startsDigit] at hrest
          exact ⟨by simp [List.takeWhile_cons, hrest],
            by simp [List.dropWhile_cons, hrest]⟩
  | cons d ds ih =>
      have hd : d.isDigit = true := hds d (by simp)
      have hds' : ∀ x ∈ ds, x.isDigit = true :=
        fun x hx => hds x (by simp [hx])
      obtain ⟨h1, h2⟩ := ih hds'
      exact ⟨by simp [List.takeWhile_cons, hd, h1],
        by simp [List.dropWhile_cons, hd, h2]⟩

theorem parseUInt_natRepr (m : Nat) (rest : List Char)
    (hrest : startsDigit rest = false) :
    parseUInt (natRepr m ++ rest) = Option.some (m, rest) := by
  obtain ⟨c, ds, hrepr, hdig, hz, hall, hval⟩ :=
    natReprAux_spec (m + 1) m (Nat.lt_succ_self m)
  unfold natRepr
  rw [hrepr, List.cons_append]
  by_cases hm : m = 0
  · subst hm
    have hcds : c :: ds = ['0'] := by rw [← hrepr]; rfl
    have hc : c = '0' := by
      injection hcds with hc _
    have hds : ds = [] := by
      injection hcds with _ hds
    subst hc
    subst hds
    simp [parseUInt]
  · have hc0 : c ≠ '0' := hz hm
    obtain ⟨ht, hd⟩ := takeWhile_digits_append ds rest hall hrest
    simp only [parseUInt]
    rw [if_neg hc0, if_pos hdig, ht, hd, hval]

theorem delimOk_facts (rest : List Char) (h : delimOk rest = true) :
    startsDigit rest = false ∧ hasFracOrExp rest = false := by
  cases rest with
  | nil => exact ⟨rfl, rfl⟩
  | cons c t =>
      have hc : c = ',' ∨ c = ']' ∨ c = '\x7d' ∨ c = '\n' := by
        simpa [delimOk, or_assoc] using h
      rcases hc with h1 | h1 | h1 | h1 <;> subst h1 <;>
        exact ⟨rfl, by simp [hasFracOrExp]⟩

theorem digit_ne_minus (c : Char) (h : c.isDigit = true) : c ≠ '-' := by
  intro heq
  rw [heq] at h
  exact absurd h (by decide)

theorem parseNumber_intRepr (n : Int) (rest : List Char)
    (hrest : delimOk rest = true) :
    parseNumber (intRepr n ++ rest) = Option.some (n, rest) := by
  obtain ⟨hsd, hfe⟩ := delimOk_facts rest hrest
  have hcond : ¬(hasFracOrExp rest = true) := by simp [hfe]
  unfold intRepr
  by_cases hneg : n < 0
  · rw [if_pos hneg, List.cons_append]
    simp only [parseNumber, if_true]
    rw [parseUInt_natRepr n.natAbs rest hsd]
    show (if hasFracOrExp rest = true then Option.none
      else Option.some (-((n.natAbs : Nat) : Int), rest)) =
        Option.some (n, rest)
    rw [if_neg hcond]
    have hval2 : -((n.natAbs : Nat) : Int) = n := by omega
    rw [hval2]
  · rw [if_neg hneg]
    obtain ⟨c, ds, hrepr, hdig, hz, hall, hval⟩ :=
      natReprAux_spec (n.natAbs + 1) n.natAbs (Nat.lt_succ_self _)
    have hpu : parseUInt (natRepr n.natAbs ++ rest) =
        Option.some (n.natAbs, rest) := parseUInt_natRepr n.natAbs rest hsd
    unfold natRepr at hpu ⊢
    rw [hrepr, List.cons_append] at hpu ⊢
    simp only [parseNumber]
    rw [if_neg (digit_ne_minus c hdig), hpu]
    show (if hasFracOrExp rest = true then Option.none
      else Option.some (((n.natAbs : Nat) : Int), rest)) =
        Option.some (n, rest)
    rw [if_neg hcond]
    have hval2 : ((n.natAbs : Nat) : Int) = n := by omega
    rw [hval2]

/-! ## JSON round trip: strings -/

theorem char_toNat_facts (c : Char) :
    c.toNat < 1114112 ∧ ¬(55296 ≤ c.toNat ∧ c.toNat ≤ 57343) := by
  have h := c.valid
  unfold UInt32.isValidChar at h
  rcases h with h | ⟨ha, hb⟩
  · have hn : c.toNat < 55296 := h
    exact ⟨by omega, by omega⟩
  · have hn1 : 57343 < c.toNat := ha
    have hn2 : c.toNat < 1114112 := hb
    exact ⟨by omega, by omega⟩

theorem parseStrAux_u_step (f n : Nat) (Y : List Char) (h16 : n < 65536)
    (hs1 : ¬(55296 ≤ n ∧ n ≤ 56319)) (hs2 : ¬(56320 ≤ n ∧ n ≤ 57343)) :
    parseStrAux (f + 1) ('\\' :: 'u' :: (hex4 n ++ Y)) =
      (parseStrAux f Y).map (fun q => (Char.ofNat n :: q.1, q.2)) := by
  simp only [parseStrAux]
  rw [if_neg (show ¬(('\\' : Char) = '"') by decide),
    if_pos (show True from trivial)]
  rw [parseHex4_hex4 n h16]
  dsimp only
  rw [if_neg hs1, if_neg hs2]

theorem parseStrAux_surrogate_step (f hi lo : Nat) (Y : List Char)
    (hhi16 : hi < 65536) (hlo16 : lo < 65536)
    (hhiR : 55296 ≤ hi ∧ hi ≤ 56319) (hloR : 56320 ≤ lo ∧ lo ≤ 57343) :
    parseStrAux (f + 1)
      ('\\' :: 'u' :: (hex4 hi ++ ('\\' :: 'u' :: (hex4 lo ++ Y)))) =
      (parseStrAux f Y).map (fun q =>
        (Char.ofNat (65536 + (hi - 55296) * 1024 + (lo - 56320)) :: q.1,
          q.2)) := by
  simp only [parseStrAux]
  rw [if_neg (show ¬(('\\' : Char) = '"') by decide),
    if_pos (show True from trivial)]
  rw [parseHex4_hex4 hi hhi16]
  dsimp only
  rw [if_pos hhiR]
  split
  next r4 heq =>
    injection heq with hx1 hx2
    injection hx2 with hx3 hx4
    rw [← hx4, parseHex4_hex4 lo hlo16]
    dsimp only
    rw [if_pos hloR]
  next hne =>
    exact absurd rfl (hne _)

set_option maxRecDepth 4096 in
theorem parseStrAux_escape (str : List Char) :
    ∀ (rest : List Char) (fuel : Nat),
      (escapeString str).length < fuel →
      parseStrAux fuel (escapeString str ++ ('"' :: rest)) =
        Option.some (str, rest) := by
  induction str with
  | nil =>
      intro rest fuel h
      cases fuel with
      | zero => omega
      | succ f => rfl
  | cons c cs ih =>
      intro rest fuel h
      have hesc : escapeString (c :: cs) = escapeChar c ++ escapeString cs :=
        rfl
      rw [hesc, List.length_append] at h
      rw [hesc, List.append_assoc]
      by_cases h1 : c = '"'
      · subst h1
        rw [show escapeChar '"' = ['\\', '"'] from rfl] at h ⊢
        cases fuel with
        | zero => omega
        | succ f =>
            rw [show (['\\', '"'] : List Char) ++
              (escapeString cs ++ '"' :: rest) =
              '\\' :: '"' :: (escapeString cs ++ '"' :: rest) from rfl]
            rw [show parseStrAux (f + 1)
                ('\\' :: '"' :: (escapeString cs ++ '"' :: rest)) =
              (parseStrAux f (escapeString cs ++ '"' :: rest)).map
                (fun q => ('"' :: q.1, q.2)) from rfl]
            rw [ih rest f (by simp at h ⊢; omega)]
            rfl
      by_cases h2 : c = '\\'
      · subst h2
        rw [show escapeChar '\\' = ['\\', '\\'] from rfl] at h ⊢
        cases fuel with
        | zero => omega
        | succ f =>
            rw [show (['\\', '\\'] : List Char) ++
              (escapeString cs ++ '"' :: rest) =
              '\\' :: '\\' :: (escapeString cs ++ '"' :: rest) from rfl]
            rw [show parseStrAux (f + 1)
                ('\\' :: '\\' :: (escapeString cs ++ '"' :: rest)) =
              (parseStrAux f (escapeString cs ++ '"' :: rest)).map
                (fun q => ('\\' :: q.1, q.2)) from rfl]
            rw [ih rest f (by simp at h ⊢; omega)]
            rfl
      by_cases h3 : c = '\x08'
      · subst h3
        rw [show escapeChar '\x08' = ['\\', 'b'] from rfl] at h ⊢
        cases fuel with
        | zero => omega
        | succ f =>
            rw [show (['\\', 'b'] : List Char) ++
              (escapeString cs ++ '"' :: rest) =
              '\\' :: 'b' :: (escapeString cs ++ '"' :: rest) from rfl]
            rw [show parseStrAux (f + 1)
                ('\\' :: 'b' :: (escapeString cs ++ '"' :: rest)) =
              (parseStrAux f (escapeString cs ++ '"' :: rest)).map
                (fun q => ('\x08' :: q.1, q.2)) from rfl]
            rw [ih rest f (by simp at h ⊢; omega)]
            rfl
      by_cases h4 : c = '\t'
      · subst h4
        rw [show escapeChar '\t' = ['\\', 't'] from rfl] at h ⊢
        cases fuel with
        | zero => omega
        | succ f =>
            rw [show (['\\', 't'] : List Char) ++
              (escapeString cs ++ '"' :: rest) =
              '\\' :: 't' :: (escapeString cs ++ '"' :: rest) from rfl]
            rw [show parseStrAux (f + 1)
                ('\\' :: 't' :: (escapeString cs ++ '"' :: rest)) =
              (parseStrAux f (escapeString cs ++ '"' :: rest)).map
                (fun q => ('\t' :: q.1, q.2)) from rfl]
            rw [ih rest f (by simp at h ⊢; omega)]
            rfl
      by_cases h5 : c = '\n'
      · subst h5
        rw [show escapeChar '\n' = ['\\', 'n'] from rfl] at h ⊢
        cases fuel with
        | zero => omega
        | succ f =>
            rw [show (['\\', 'n'] : List Char) ++
              (escapeString cs ++ '"' :: rest) =
              '\\' :: 'n' :: (escapeString cs ++ '"' :: rest) from rfl]
            rw [show parseStrAux (f + 1)
                ('\\' :: 'n' :: (escapeString cs ++ '"' :: rest)) =
              (parseStrAux f (escapeString cs ++ '"' :: rest)).map
                (fun q => ('\n' :: q.1, q.2)) from rfl]
            rw [ih rest f (by simp at h ⊢; omega)]
            rfl
      by_cases h6 : c = '\x0c'
      · subst h6
        rw [show escapeChar '\x0c' = ['\\', 'f'] from rfl] at h ⊢
        cases fuel with
        | zero => omega
        | succ f =>
            rw [show (['\\', 'f'] : List Char) ++
              (escapeString cs ++ '"' :: rest) =
              '\\' :: 'f' :: (escapeString cs ++ '"' :: rest) from rfl]
            rw [show parseStrAux (f + 1)
                ('\\' :: 'f' :: (escapeString cs ++ '"' :: rest)) =
              (parseStrAux f (escapeString cs ++ '"' :: rest)).map
                (fun q => ('\x0c' :: q.1, q.2)) from rfl]
            rw [ih rest f (by simp at h ⊢; omega)]
            rfl
      by_cases h7 : c = '\r'
      · subst h7
        rw [show escapeChar '\r' = ['\\', 'r'] from rfl] at h ⊢
        cases fuel with
        | zero => omega
        | succ f =>
            rw [show (['\\', 'r'] : List Char) ++
              (escapeString cs ++ '"' :: rest) =
              '\\' :: 'r' :: (escapeString cs ++ '"' :: rest) from rfl]
            rw [show parseStrAux (f + 1)
                ('\\' :: 'r' :: (escapeString cs ++ '"' :: rest)) =
              (parseStrAux f (escapeString cs ++ '"' :: rest)).map
                (fun q => ('\r' :: q.1, q.2)) from rfl]
            rw [ih rest f (by simp at h ⊢; omega)]
            rfl
      by_cases h8 : 32 ≤ c.toNat ∧ c.toNat ≤ 126
      · have hec : escapeChar c = [c] := by
          unfold escapeChar
          rw [if_neg h1, if_neg h2, if_neg h3, if_neg h4, if_neg h5,
            if_neg h6, if_neg h7, if_pos h8]
        rw [hec] at h ⊢
        cases fuel with
        | zero => omega
        | succ f =>
            rw [show ([c] : List Char) ++ (escapeString cs ++ '"' :: rest) =
              c :: (escapeString cs ++ '"' :: rest) from rfl]
            simp only [parseStrAux]
            rw [if_neg h1, if_neg h2,
              if_neg (show ¬(c.toNat < 32) by omega)]
            rw [ih rest f (by simp at h ⊢; omega)]
            rfl
      by_cases h9 : c.toNat < 65536
      · have hec : escapeChar c = '\\' :: 'u' :: hex4 c.toNat := by
          unfold escapeChar
          rw [if_neg h1, if_neg h2, if_neg h3, if_neg h4, if_neg h5,
            if_neg h6, if_neg h7, if_neg h8, if_pos h9]
        obtain ⟨-, hsurr⟩ := char_toNat_facts c
        rw [hec] at h ⊢
        cases fuel with
        | zero =>
            rw [List.length_cons, List.length_cons] at h
            omega
        | succ f =>
            rw [show ('\\' :: 'u' :: hex4 c.toNat) ++
              (escapeString cs ++ '"' :: rest) =
              '\\' :: 'u' :: (hex4 c.toNat ++ (escapeString cs ++ '"' :: rest))
              from by simp]
            rw [parseStrAux_u_step f c.toNat
              (escapeString cs ++ '"' :: rest) h9
              (by omega) (by omega)]
            rw [ih rest f (by
              rw [List.length_cons, List.length_cons,
                show (hex4 c.toNat).length = 4 from rfl] at h
              omega)]
            rw [Char.ofNat_toNat]
            rfl
      · have hec : escapeChar c =
            ('\\' :: 'u' :: hex4 (55296 + (c.toNat - 65536) / 1024)) ++
              ('\\' :: 'u' :: hex4 (56320 + (c.toNat - 65536) % 1024)) := by
          unfold escapeChar
          rw [if_neg h1, if_neg h2, if_neg h3, if_neg h4, if_neg h5,
            if_neg h6, if_neg h7, if_neg h8, if_neg h9]
        obtain ⟨hlim, hsurr⟩ := char_toNat_facts c
        have hhi : 55296 + (c.toNat - 65536) / 1024 < 65536 := by omega
        have hlo : 56320 + (c.toNat - 65536) % 1024 < 65536 := by
          have := Nat.mod_lt (c.toNat - 65536) (show 0 < 1024 by norm_num)
          omega
        rw [hec] at h ⊢
        cases fuel with
        | zero =>
            rw [List.length_append, List.length_cons, List.length_cons] at h
            omega
        | succ f =>
            rw [show (('\\' :: 'u' :: hex4 (55296 + (c.toNat - 65536) / 1024))
                ++ ('\\' :: 'u' :: hex4 (56320 + (c.toNat - 65536) % 1024)))
                ++ (escapeString cs ++ '"' :: rest) =
              '\\' :: 'u' :: (hex4 (55296 + (c.toNat - 65536) / 1024) ++
                ('\\' :: 'u' :: (hex4 (56320 + (c.toNat - 65536) % 1024) ++
                  (escapeString cs ++ '"' :: rest)))) from by simp]
            rw [parseStrAux_surrogate_step f
              (55296 + (c.toNat - 65536) / 1024)
              (56320 + (c.toNat - 65536) % 1024)
              (escapeString cs ++ '"' :: rest) hhi hlo
              (by omega)
              (by
                have := Nat.mod_lt (c.toNat - 65536)
                  (show 0 < 1024 by norm_num)
                omega)]
            rw [ih rest f (by
              rw [List.length_append, List.length_cons, List.length_cons,
                List.length_cons, List.length_cons,
                show (hex4 (55296 + (c.toNat - 65536) / 1024)).length = 4
                  from rfl,
                show (hex4 (56320 + (c.toNat - 65536) % 1024)).length = 4
                  from rfl] at h
              omega)]
            have hcomb : 65536 +
                ((55296 + (c.toNat - 65536) / 1024) - 55296) * 1024 +
                ((56320 + (c.toNat - 65536) % 1024) - 56320) =
                c.toNat := by
              have := Nat.div_add_mod (c.toNat - 65536) 1024
              omega
            rw [hcomb, Char.ofNat_toNat]
            rfl

theorem parseStringBody_escape (str rest : List Char) :
    parseStringBody (escapeString str ++ ('"' :: rest)) =
      Option.some (str, rest) := by
  unfold parseStringBody
  apply parseStrAux_escape
  rw [List.length_append, List.length_cons]
  omega

/-! ## JSON round trip: structure of the serialized text -/

theorem sizePy_pos (v : PyVal) : 1 ≤ sizePy v := by
  cases v <;> simp [sizePy]

theorem dumps_head (p : Bool) (v : PyVal) (lvl : Nat) :
    ∃ c t, dumps p v lvl = c :: t ∧ isWsJson c = false ∧ c ≠ ']' ∧
      c ≠ '\x7d' := by
  cases v with
  | none => exact ⟨'n', ['u', 'l', 'l'], rfl, by decide, by decide, by decide⟩
  | bool b =>
      cases b
      · exact ⟨'f', ['a', 'l', 's', 'e'], rfl, by decide, by decide, by decide⟩
      · exact ⟨'t', ['r', 'u', 'e'], rfl, by decide, by decide, by decide⟩
  | int n =>
      show ∃ c t, intRepr n = c :: t ∧ _
      unfold intRepr
      by_cases hneg : n < 0
      · rw [if_pos hneg]
        exact ⟨'-', natRepr n.natAbs, rfl, by decide, by decide, by decide⟩
      · rw [if_neg hneg]
        obtain ⟨c, ds, hrepr, hdig, -, -, -⟩ :=
          natReprAux_spec (n.natAbs + 1) n.natAbs (Nat.lt_succ_self _)
        obtain ⟨hws, -, -, -, -, -, -, -, hcb, hbr⟩ := isDigit_facts c hdig
        exact ⟨c, ds, hrepr, hws, hcb, hbr⟩
  | str s =>
      exact ⟨'"', escapeString s ++ ['"'], rfl, by decide, by decide,
        by decide⟩
  | list xs =>
      cases xs with
      | nil => exact ⟨'[', [']'], rfl, by decide, by decide, by decide⟩
      | cons x xs =>
          exact ⟨'[', wsOpen p (lvl + 1) ++ dumpsItems p (x :: xs) (lvl + 1) ++
            wsClose p lvl ++ [']'], rfl, by decide, by decide, by decide⟩
  | tuple xs =>
      cases xs with
      | nil => exact ⟨'[', [']'], rfl, by decide, by decide, by decide⟩
      | cons x xs =>
          exact ⟨'[', wsOpen p (lvl + 1) ++ dumpsItems p (x :: xs) (lvl + 1) ++
            wsClose p lvl ++ [']'], rfl, by decide, by decide, by decide⟩
  | dict kvs =>
      cases kvs with
      | nil => exact ⟨'\x7b', ['\x7d'], rfl, by decide, by decide, by decide⟩
      | cons kv kvs =>
          exact ⟨'\x7b', wsOpen p (lvl + 1) ++
            dumpsEntries p (kv :: kvs) (lvl + 1) ++
            wsClose p lvl ++ ['\x7d'], rfl, by decide, by decide, by decide⟩

theorem skipWs_dumps_append (p : Bool) (v : PyVal) (lvl : Nat)
    (R : List Char) :
    skipWs (dumps p v lvl ++ R) = dumps p v lvl ++ R := by
  obtain ⟨c, t, hct, hws, -, -⟩ := dumps_head p v lvl
  rw [hct, List.cons_append]
  exact skipWs_cons_of_not_ws c (t ++ R) hws

theorem delimOk_wsClose_bracket (p : Bool) (lvl : Nat) (r : List Char) :
    delimOk (wsClose p lvl ++ (']' :: r)) = true := by
  cases p
  · rfl
  · rfl

theorem delimOk_wsClose_brace (p : Bool) (lvl : Nat) (r : List Char) :
    delimOk (wsClose p lvl ++ ('\x7d' :: r)) = true := by
  cases p
  · rfl
  · rfl

theorem delimOk_itemSep (p : Bool) (lvl : Nat) (R : List Char) :
    delimOk (itemSep p lvl ++ R) = true := by
  cases p
  · rfl
  · rfl

theorem skipWs_wsClose_cons (p : Bool) (lvl : Nat) (c : Char)
    (hc : isWsJson c = false) (r : List Char) :
    skipWs (wsClose p lvl ++ (c :: r)) = c :: r := by
  rw [wsClose_eq_wsOpen, skipWs_wsOpen_append]
  exact skipWs_cons_of_not_ws c r hc

/-! ## JSON round trip: rebuilding a dict from parsed members -/

theorem keysDistinct_iff (l : List (List Char)) :
    keysDistinct l = true ↔ l.Nodup := by
  induction l with
  | nil => simp [keysDistinct]
  | cons k ks ih =>
      simp [keysDistinct, ih, List.nodup_cons]

theorem dictUpd_not_mem (acc : List (List Char × PyVal)) (k : List Char)
    (v : PyVal) (h : k ∉ acc.map Prod.fst) :
    dictUpd acc k v = acc ++ [(k, v)] := by
  induction acc with
  | nil => rfl
  | cons kv acc ih =>
      obtain ⟨k', v'⟩ := kv
      simp only [List.map_cons, List.mem_cons, not_or] at h
      obtain ⟨h1, h2⟩ := h
      unfold dictUpd
      rw [if_neg (fun heq => h1 heq.symm)]
      rw [ih h2]
      rfl

theorem pyDictOfPairsAux_eq (ps : List (List Char × PyVal)) :
    ∀ (acc : List (List Char × PyVal)),
      ((acc ++ ps).map Prod.fst).Nodup →
      pyDictOfPairsAux acc ps = acc ++ ps := by
  induction ps with
  | nil => intro acc _; simp [pyDictOfPairsAux]
  | cons kv ps ih =>
      intro acc h
      obtain ⟨k, v⟩ := kv
      rw [List.map_append] at h
      obtain ⟨-, -, hdisj⟩ := List.nodup_append.mp h
      have hk : k ∉ acc.map Prod.fst := fun hkmem =>
        hdisj hkmem (by rw [List.map_cons]; exact List.mem_cons_self k _)
      unfold pyDictOfPairsAux
      rw [dictUpd_not_mem acc k v hk]
      rw [ih (acc ++ [(k, v)]) (by
        rw [List.append_assoc]
        simpa using h)]
      simp

theorem pyDictOfPairs_eq (ps : List (List Char × PyVal))
    (h : keysDistinct (ps.map Prod.fst) = true) :
    pyDictOfPairs ps = ps := by
  unfold pyDictOfPairs
  rw [pyDictOfPairsAux_eq ps [] (by
    simpa using (keysDistinct_iff (ps.map Prod.fst)).mp h)]
  rfl

/-! ## JSON round trip: decoder step lemmas -/

theorem parseValue_quote_step (f : Nat) (Z : List Char) :
    parseValue (f + 1) ('"' :: Z) =
      (parseStringBody Z).map (fun q => (PyVal.str q.1, q.2)) := rfl

theorem parseValue_bracket_step (f : Nat) (Z : List Char) :
    parseValue (f + 1) ('[' :: Z) = parseArrayBody f (skipWs Z) := rfl

theorem parseValue_brace_step (f : Nat) (Z : List Char) :
    parseValue (f + 1) ('\x7b' :: Z) = parseObjBody f (skipWs Z) := rfl

theorem parseValue_minus_step (f : Nat) (Z : List Char) :
    parseValue (f + 1) ('-' :: Z) =
      (parseNumber ('-' :: Z)).map (fun q => (PyVal.int q.1, q.2)) := rfl

theorem parseValue_other_step (f : Nat) (c : Char) (t : List Char)
    (h1 : c ≠ '"') (h2 : c ≠ '[') (h3 : c ≠ '\x7b') (h4 : c ≠ 'n')
    (h5 : c ≠ 't') (h6 : c ≠ 'f') :
    parseValue (f + 1) (c :: t) =
      (parseNumber (c :: t)).map (fun q => (PyVal.int q.1, q.2)) := by
  simp only [parseValue]
  rw [if_neg h1, if_neg h2, if_neg h3, if_neg h4, if_neg h5, if_neg h6]

theorem parseArrayBody_cons (f : Nat) (c : Char) (t : List Char)
    (hc : c ≠ ']') :
    parseArrayBody (f + 1) (c :: t) =
      (parseElems f (c :: t)).map (fun q => (PyVal.list q.1, q.2)) := by
  simp only [parseArrayBody]
  rw [if_neg hc]

theorem parseObjBody_quote (f : Nat) (t : List Char) :
    parseObjBody (f + 1) ('"' :: t) =
      (parseMembers f ('"' :: t)).map (fun q =>
        (PyVal.dict (pyDictOfPairs q.1), q.2)) := rfl

theorem parseElems_unfold (f : Nat) (s : List Char) :
    parseElems (f + 1) s =
      match parseValue f s with
      | Option.none => Option.none
      | Option.some (v, r) =>
          match skipWs r with
          | [] => Option.none
          | c :: r2 =>
              if c = ',' then
                (parseElems f (skipWs r2)).map (fun q => (v :: q.1, q.2))
              else if c = ']' then Option.some ([v], r2)
              else Option.none := rfl

theorem parseMembers_quote (f : Nat) (r0 : List Char) :
    parseMembers (f + 1) ('"' :: r0) =
      match parseStringBody r0 with
      | Option.none => Option.none
      | Option.some (k, r1) =>
          match skipWs r1 with
          | [] => Option.none
          | c1 :: r2 =>
              if c1 = ':' then
                match parseValue f (skipWs r2) with
                | Option.none => Option.none
                | Option.some (v, r3) =>
                    match skipWs r3 with
                    | [] => Option.none
                    | c2 :: r4 =>
                        if c2 = ',' then
                          (parseMembers f (skipWs r4)).map (fun q =>
                            ((k, v) :: q.1, q.2))
                        else if c2 = '\x7d' then
                          Option.some ([(k, v)], r4)
                        else Option.none
              else Option.none := rfl

theorem skipWs_space (X : List Char) : skipWs (' ' :: X) = skipWs X := by
  simp only [skipWs]
  rw [if_pos (by decide)]

theorem itemSep_decomp (p : Bool) (lvl : Nat) :
    ∃ w, itemSep p lvl = ',' :: w ∧ ∀ X, skipWs (w ++ X) = skipWs X := by
  cases p
  · exact ⟨[' '], rfl, fun X => skipWs_space X⟩
  · refine ⟨'\n' :: spaces (4 * lvl), rfl, fun X => ?_⟩
    show skipWs ('\n' :: (spaces (4 * lvl) ++ X)) = skipWs X
    simp only [skipWs]
    rw [if_pos (by decide)]
    exact skipWs_spaces_append _ _

theorem dumpsItems_head (p : Bool) (x : PyVal) (xs : List PyVal)
    (lvl : Nat) (R : List Char) :
    ∃ c t, dumpsItems p (x :: xs) lvl ++ R = c :: t ∧ isWsJson c = false ∧
      c ≠ ']' ∧ c ≠ '\x7d' := by
  obtain ⟨c, t0, hct, hws, hcb, hbr⟩ := dumps_head p x lvl
  cases xs with
  | nil =>
      refine ⟨c, t0 ++ R, ?_, hws, hcb, hbr⟩
      rw [show dumpsItems p [x] lvl = dumps p x lvl from rfl, hct,
        List.cons_append]
  | cons y ys =>
      refine ⟨c, t0 ++ ((itemSep p lvl ++ dumpsItems p (y :: ys) lvl) ++ R),
        ?_, hws, hcb, hbr⟩
      rw [show dumpsItems p (x :: y :: ys) lvl =
        dumps p x lvl ++ (itemSep p lvl ++ dumpsItems p (y :: ys) lvl)
        from rfl, hct]
      simp

theorem dumpsEntries_head (p : Bool) (k : List Char) (v : PyVal)
    (kvs : List (List Char × PyVal)) (lvl : Nat) :
    ∃ t, dumpsEntries p ((k, v) :: kvs) lvl = '"' :: t := by
  cases kvs with
  | nil => exact ⟨_, rfl⟩
  | cons kv2 kvs2 => exact ⟨_, rfl⟩

theorem sizeOf_pair (kv : List Char × PyVal) :
    sizeOf kv = 1 + sizeOf kv.1 + sizeOf kv.2 := by
  cases kv with
  | mk k v => simp

theorem jsonableKVs_cons (kv : List Char × PyVal)
    (kvs : List (List Char × PyVal)) :
    jsonableKVs (kv :: kvs) = (jsonable kv.2 && jsonableKVs kvs) := by
  cases kv with
  | mk k v => rfl

theorem sizeEntries_cons (kv : List Char × PyVal)
    (kvs : List (List Char × PyVal)) :
    sizeEntries (kv :: kvs) = sizePy kv.2 + 1 + sizeEntries kvs := by
  cases kv with
  | mk k v => rfl

theorem dumpsEntries_one (p : Bool) (kv : List Char × PyVal) (lvl : Nat) :
    dumpsEntries p [kv] lvl =
      '"' :: (escapeString kv.1 ++
        ('"' :: ':' :: ' ' :: dumps p kv.2 lvl)) := by
  cases kv with
  | mk k v => rfl

theorem dumpsEntries_two (p : Bool) (kv kv2 : List Char × PyVal)
    (kvs : List (List Char × PyVal)) (lvl : Nat) :
    dumpsEntries p (kv :: kv2 :: kvs) lvl =
      ('"' :: (escapeString kv.1 ++
        ('"' :: ':' :: ' ' :: dumps p kv.2 lvl))) ++
        (itemSep p lvl ++ dumpsEntries p (kv2 :: kvs) lvl) := by
  cases kv with
  | mk k v => rfl

theorem dumpsEntries_head_pair (p : Bool) (kv : List Char × PyVal)
    (kvs : List (List Char × PyVal)) (lvl : Nat) :
    ∃ t, dumpsEntries p (kv :: kvs) lvl = '"' :: t := by
  cases kv with
  | mk k v => exact dumpsEntries_head p k v kvs lvl

/-! ## JSON round trip: the decoder inverts the serializer -/

set_option maxHeartbeats 1600000 in
mutual

theorem parse_dumps (p : Bool) (v : PyVal) (lvl : Nat) (rest : List Char)
    (fuel : Nat) (hv : jsonable v = true) (hr : delimOk rest = true)
    (hf : sizePy v ≤ fuel) :
    parseValue fuel (dumps p v lvl ++ rest) = Option.some (v, rest) := by
  cases v with
  | none =>
      cases fuel with
      | zero => simp [sizePy] at hf
      | succ f => rfl
  | bool b =>
      cases b
      · cases fuel with
        | zero => simp [sizePy] at hf
        | succ f => rfl
      · cases fuel with
        | zero => simp [sizePy] at hf
        | succ f => rfl
  | int n =>
      cases fuel with
      | zero => simp [sizePy] at hf
      | succ f =>
          by_cases hneg : n < 0
          · have hie : intRepr n = '-' :: natRepr n.natAbs := by
              unfold intRepr
              rw [if_pos hneg]
            rw [show dumps p (PyVal.int n) lvl = intRepr n from rfl, hie,
              List.cons_append, parseValue_minus_step]
            have hnum := parseNumber_intRepr n rest hr
            rw [hie, List.cons_append] at hnum
            rw [hnum]
            rfl
          · obtain ⟨c, ds, hrepr, hdig, -, -, -⟩ :=
              natReprAux_spec (n.natAbs + 1) n.natAbs (Nat.lt_succ_self _)
            obtain ⟨-, hq, hlb, hob, hn, ht, hfc, -, -, -⟩ :=
              isDigit_facts c hdig
            have hie : intRepr n = c :: ds := by
              unfold intRepr
              rw [if_neg hneg]
              exact hrepr
            rw [show dumps p (PyVal.int n) lvl = intRepr n from rfl, hie,
              List.cons_append,
              parseValue_other_step f c (ds ++ rest) hq hlb hob hn ht hfc]
            have hnum := parseNumber_intRepr n rest hr
            rw [hie, List.cons_append] at hnum
            rw [hnum]
            rfl
  | str s =>
      cases fuel with
      | zero => simp [sizePy] at hf
      | succ f =>
          rw [show dumps p (PyVal.str s) lvl ++ rest =
            '"' :: (escapeString s ++ ('"' :: rest)) from by
            show ('"' :: (escapeString s ++ ['"'])) ++ rest = _
            simp]
          rw [parseValue_quote_step, parseStringBody_escape]
          rfl
  | list xs =>
      cases xs with
      | nil =>
          cases fuel with
          | zero => simp [sizePy, sizeItems] at hf
          | succ f =>
              cases f with
              | zero => simp [sizePy, sizeItems] at hf
              | succ g => rfl
      | cons x xs =>
          have hvx : jsonable x = true ∧ jsonableList xs = true := by
            have hl : jsonableList (x :: xs) = true := hv
            simpa [jsonableList, Bool.and_eq_true] using hl
          have hsz : sizeItems (x :: xs) + 2 ≤ fuel := by
            simpa [sizePy] using hf
          have hsx := sizePy_pos x
          have hsi : sizeItems (x :: xs) = sizePy x + 1 + sizeItems xs := rfl
          cases fuel with
          | zero => omega
          | succ f =>
              rw [show dumps p (PyVal.list (x :: xs)) lvl ++ rest =
                '[' :: (wsOpen p (lvl + 1) ++
                  (dumpsItems p (x :: xs) (lvl + 1) ++
                    (wsClose p lvl ++ (']' :: rest)))) from by
                show ('[' :: (wsOpen p (lvl + 1) ++
                  dumpsItems p (x :: xs) (lvl + 1) ++
                  wsClose p lvl ++ [']'])) ++ rest = _
                simp]
              rw [parseValue_bracket_step, skipWs_wsOpen_append]
              obtain ⟨c, t, hct, hws, hcb, -⟩ :=
                dumpsItems_head p x xs (lvl + 1)
                  (wsClose p lvl ++ (']' :: rest))
              rw [hct, skipWs_cons_of_not_ws c t hws]
              cases f with
              | zero => omega
              | succ g =>
                  rw [parseArrayBody_cons g c t hcb, ← hct]
                  rw [parse_dumpsItems p x xs (lvl + 1) lvl rest g hvx.1
                    hvx.2 (by omega)]
                  rfl
  | tuple xs => exact absurd hv (by simp [jsonable])
  | dict kvs =>
      cases kvs with
      | nil =>
          cases fuel with
          | zero => simp [sizePy, sizeEntries] at hf
          | succ f =>
              cases f with
              | zero => simp [sizePy, sizeEntries] at hf
              | succ g => rfl
      | cons kv kvs =>
          have hvd : keysDistinct ((kv :: kvs).map Prod.fst) = true ∧
              (jsonable kv.2 = true ∧ jsonableKVs kvs = true) := by
            have hd : (keysDistinct ((kv :: kvs).map Prod.fst) &&
                jsonableKVs (kv :: kvs)) = true := hv
            simp only [Bool.and_eq_true] at hd
            refine ⟨hd.1, ?_⟩
            have hkv : (jsonable kv.2 && jsonableKVs kvs) = true := by
              rw [← jsonableKVs_cons]
              exact hd.2
            simpa [Bool.and_eq_true] using hkv
          have hsz : sizeEntries (kv :: kvs) + 2 ≤ fuel := by
            simpa [sizePy] using hf
          have hsv := sizePy_pos kv.2
          have hse : sizeEntries (kv :: kvs) =
              sizePy kv.2 + 1 + sizeEntries kvs := sizeEntries_cons kv kvs
          cases fuel with
          | zero => omega
          | succ f =>
              rw [show dumps p (PyVal.dict (kv :: kvs)) lvl ++ rest =
                '\x7b' :: (wsOpen p (lvl + 1) ++
                  (dumpsEntries p (kv :: kvs) (lvl + 1) ++
                    (wsClose p lvl ++ ('\x7d' :: rest)))) from by
                show ('\x7b' :: (wsOpen p (lvl + 1) ++
                  dumpsEntries p (kv :: kvs) (lvl + 1) ++
                  wsClose p lvl ++ ['\x7d'])) ++ rest = _
                simp]
              rw [parseValue_brace_step, skipWs_wsOpen_append]
              obtain ⟨t, hqt⟩ := dumpsEntries_head_pair p kv kvs (lvl + 1)
              rw [hqt, List.cons_append,
                skipWs_cons_of_not_ws '"' _ (by decide)]
              cases f with
              | zero => omega
              | succ g =>
                  rw [parseObjBody_quote g, ← List.cons_append, ← hqt]
                  rw [parse_dumpsEntries p kv kvs (lvl + 1) lvl rest g
                    hvd.2.1 hvd.2.2 (by omega)]
                  simp only [Option.map_some']
                  rw [pyDictOfPairs_eq _ hvd.1]
termination_by sizeOf v
decreasing_by
  all_goals
    simp_wf
    try subst_vars
    try simp [sizeOf_pair, PyVal.list.sizeOf_spec, PyVal.tuple.sizeOf_spec,
      PyVal.dict.sizeOf_spec, List.cons.sizeOf_spec, Prod.mk.sizeOf_spec]
    try omega

theorem parse_dumpsItems (p : Bool) (x : PyVal) (xs : List PyVal)
    (lvl lvl2 : Nat) (rest : List Char) (fuel : Nat)
    (hx : jsonable x = true) (hxs : jsonableList xs = true)
    (hf : sizeItems (x :: xs) ≤ fuel) :
    parseElems fuel
      (dumpsItems p (x :: xs) lvl ++ (wsClose p lvl2 ++ (']' :: rest))) =
      Option.some (x :: xs, rest) := by
  have hsx := sizePy_pos x
  cases xs with
  | nil =>
      have hsi : sizeItems [x] = sizePy x + 1 + 0 := rfl
      cases fuel with
      | zero => omega
      | succ g =>
          rw [show dumpsItems p [x] lvl = dumps p x lvl from rfl]
          rw [parseElems_unfold]
          rw [parse_dumps p x lvl (wsClose p lvl2 ++ (']' :: rest)) g hx
            (delimOk_wsClose_bracket p lvl2 rest) (by omega)]
          dsimp only
          rw [skipWs_wsClose_cons p lvl2 ']' (by decide) rest]
          rfl
  | cons y ys =>
      have hsy := sizePy_pos y
      have hsi : sizeItems (x :: y :: ys) =
          sizePy x + 1 + sizeItems (y :: ys) := rfl
      have hsi2 : sizeItems (y :: ys) = sizePy y + 1 + sizeItems ys := rfl
      cases fuel with
      | zero => omega
      | succ g =>
          rw [show dumpsItems p (x :: y :: ys) lvl =
            dumps p x lvl ++ (itemSep p lvl ++ dumpsItems p (y :: ys) lvl)
            from rfl]
          rw [show (dumps p x lvl ++
              (itemSep p lvl ++ dumpsItems p (y :: ys) lvl)) ++
              (wsClose p lvl2 ++ (']' :: rest)) =
            dumps p x lvl ++ (itemSep p lvl ++
              (dumpsItems p (y :: ys) lvl ++
                (wsClose p lvl2 ++ (']' :: rest)))) from by simp]
          rw [parseElems_unfold]
          rw [parse_dumps p x lvl _ g hx (delimOk_itemSep p lvl _)
            (by omega)]
          dsimp only
          obtain ⟨w, hsep, hskip⟩ := itemSep_decomp p lvl
          rw [hsep, List.cons_append,
            skipWs_cons_of_not_ws ',' _ (by decide)]
          dsimp only
          rw [if_pos rfl, hskip]
          obtain ⟨c, t, hct, hws, -, -⟩ :=
            dumpsItems_head p y ys lvl (wsClose p lvl2 ++ (']' :: rest))
          rw [hct, skipWs_cons_of_not_ws c _ hws, ← hct]
          have hyl : jsonable y = true ∧ jsonableList ys = true := by
            simpa [jsonableList, Bool.and_eq_true] using hxs
          rw [parse_dumpsItems p y ys lvl lvl2 rest g hyl.1 hyl.2
            (by omega)]
          rfl
termination_by sizeOf x + sizeOf xs + 1
decreasing_by
  all_goals
    simp_wf
    try subst_vars
    try simp [sizeOf_pair, PyVal.list.sizeOf_spec, PyVal.tuple.sizeOf_spec,
      PyVal.dict.sizeOf_spec, List.cons.sizeOf_spec, Prod.mk.sizeOf_spec]
    try omega

theorem parse_dumpsEntries (p : Bool) (kv : List Char × PyVal)
    (kvs : List (List Char × PyVal)) (lvl lvl2 : Nat) (rest : List Char)
    (fuel : Nat) (hv : jsonable kv.2 = true)
    (hkvs : jsonableKVs kvs = true)
    (hf : sizeEntries (kv :: kvs) ≤ fuel) :
    parseMembers fuel
      (dumpsEntries p (kv :: kvs) lvl ++
        (wsClose p lvl2 ++ ('\x7d' :: rest))) =
      Option.some (kv :: kvs, rest) := by
  have hsv := sizePy_pos kv.2
  cases kvs with
  | nil =>
      have hse : sizeEntries [kv] = sizePy kv.2 + 1 + 0 :=
        sizeEntries_cons kv []
      cases fuel with
      | zero => omega
      | succ g =>
          rw [show dumpsEntries p [kv] lvl ++
              (wsClose p lvl2 ++ ('\x7d' :: rest)) =
            '"' :: (escapeString kv.1 ++ ('"' :: (':' :: (' ' ::
              (dumps p kv.2 lvl ++
                (wsClose p lvl2 ++ ('\x7d' :: rest))))))) from by
            rw [dumpsEntries_one]
            simp]
          rw [parseMembers_quote, parseStringBody_escape]
          dsimp only
          rw [skipWs_cons_of_not_ws ':' _ (by decide)]
          dsimp only
          rw [if_pos rfl, skipWs_space, skipWs_dumps_append]
          rw [parse_dumps p kv.2 lvl (wsClose p lvl2 ++ ('\x7d' :: rest))
            g hv (delimOk_wsClose_brace p lvl2 rest) (by omega)]
          dsimp only
          rw [skipWs_wsClose_cons p lvl2 '\x7d' (by decide) rest]
          rfl
  | cons kv2 kvs2 =>
      have hsv2 := sizePy_pos kv2.2
      have hse : sizeEntries (kv :: kv2 :: kvs2) =
          sizePy kv.2 + 1 + sizeEntries (kv2 :: kvs2) :=
        sizeEntries_cons kv (kv2 :: kvs2)
      have hse2 : sizeEntries (kv2 :: kvs2) =
          sizePy kv2.2 + 1 + sizeEntries kvs2 := sizeEntries_cons kv2 kvs2
      cases fuel with
      | zero => omega
      | succ g =>
          rw [show dumpsEntries p (kv :: kv2 :: kvs2) lvl ++
              (wsClose p lvl2 ++ ('\x7d' :: rest)) =
            '"' :: (escapeString kv.1 ++ ('"' :: (':' :: (' ' ::
              (dumps p kv.2 lvl ++ (itemSep p lvl ++
                (dumpsEntries p (kv2 :: kvs2) lvl ++
                  (wsClose p lvl2 ++ ('\x7d' :: rest))))))))) from by
            rw [dumpsEntries_two]
            simp]
          rw [parseMembers_quote, parseStringBody_escape]
          dsimp only
          rw [skipWs_cons_of_not_ws ':' _ (by decide)]
          dsimp only
          rw [if_pos rfl, skipWs_space, skipWs_dumps_append]
          rw [parse_dumps p kv.2 lvl _ g hv (delimOk_itemSep p lvl _)
            (by omega)]
          dsimp only
          obtain ⟨w, hsep, hskip⟩ := itemSep_decomp p lvl
          rw [hsep, List.cons_append,
            skipWs_cons_of_not_ws ',' _ (by decide)]
          dsimp only
          rw [if_pos rfl, hskip]
          obtain ⟨t, hqt⟩ := dumpsEntries_head_pair p kv2 kvs2 lvl
          rw [hqt, List.cons_append,
            skipWs_cons_of_not_ws '"' _ (by decide), ← List.cons_append,
            ← hqt]
          have hyl : jsonable kv2.2 = true ∧ jsonableKVs kvs2 = true := by
            rw [jsonableKVs_cons, Bool.and_eq_true] at hkvs
            exact hkvs
          rw [parse_dumpsEntries p kv2 kvs2 lvl lvl2 rest g hyl.1 hyl.2
            (by omega)]
          rfl
termination_by sizeOf kv + sizeOf kvs + 1
decreasing_by
  all_goals
    simp_wf
    try subst_vars
    try simp [sizeOf_pair, PyVal.list.sizeOf_spec, PyVal.tuple.sizeOf_spec,
      PyVal.dict.sizeOf_spec, List.cons.sizeOf_spec, Prod.mk.sizeOf_spec]
    try omega

end

/-! ## Fuel adequacy: `json_loads`'s fuel covers any serialized value -/

mutual

theorem dumps_fuel (p : Bool) (v : PyVal) (lvl : Nat) :
    sizePy v ≤ 3 * (dumps p v lvl).length := by
  cases v with
  | none =>
      obtain ⟨c, t, hct, -, -, -⟩ := dumps_head p PyVal.none lvl
      rw [show sizePy PyVal.none = 1 from rfl, hct, List.length_cons]
      omega
  | bool b =>
      obtain ⟨c, t, hct, -, -, -⟩ := dumps_head p (PyVal.bool b) lvl
      rw [show sizePy (PyVal.bool b) = 1 from rfl, hct, List.length_cons]
      omega
  | int i =>
      obtain ⟨c, t, hct, -, -, -⟩ := dumps_head p (PyVal.int i) lvl
      rw [show sizePy (PyVal.int i) = 1 from rfl, hct, List.length_cons]
      omega
  | str s =>
      obtain ⟨c, t, hct, -, -, -⟩ := dumps_head p (PyVal.str s) lvl
      rw [show sizePy (PyVal.str s) = 1 from rfl, hct, List.length_cons]
      omega
  | list xs =>
      cases xs with
      | nil =>
          rw [show dumps p (PyVal.list []) lvl = ['[', ']'] from rfl,
            show sizePy (PyVal.list []) = 2 from rfl]
          decide
      | cons x xs =>
          have hi := dumpsItems_fuel p x xs (lvl + 1)
          rw [show dumps p (PyVal.list (x :: xs)) lvl =
            '[' :: (wsOpen p (lvl + 1) ++ dumpsItems p (x :: xs) (lvl + 1) ++
              wsClose p lvl ++ [']']) from rfl]
          rw [show sizePy (PyVal.list (x :: xs)) = sizeItems (x :: xs) + 2
            from rfl]
          simp only [List.length_cons, List.length_append,
            List.length_singleton]
          omega
  | tuple xs =>
      cases xs with
      | nil =>
          rw [show dumps p (PyVal.tuple []) lvl = ['[', ']'] from rfl,
            show sizePy (PyVal.tuple []) = 2 from rfl]
          decide
      | cons x xs =>
          have hi := dumpsItems_fuel p x xs (lvl + 1)
          rw [show dumps p (PyVal.tuple (x :: xs)) lvl =
            '[' :: (wsOpen p (lvl + 1) ++ dumpsItems p (x :: xs) (lvl + 1) ++
              wsClose p lvl ++ [']']) from rfl]
          rw [show sizePy (PyVal.tuple (x :: xs)) = sizeItems (x :: xs) + 2
            from rfl]
          simp only [List.length_cons, List.length_append,
            List.length_singleton]
          omega
  | dict kvs =>
      cases kvs with
      | nil =>
          rw [show dumps p (PyVal.dict []) lvl = ['\x7b', '\x7d'] from rfl,
            show sizePy (PyVal.dict []) = 2 from rfl]
          decide
      | cons kv kvs =>
          have hi := dumpsEntries_fuel p kv kvs (lvl + 1)
          rw [show dumps p (PyVal.dict (kv :: kvs)) lvl =
            '\x7b' :: (wsOpen p (lvl + 1) ++
              dumpsEntries p (kv :: kvs) (lvl + 1) ++
              wsClose p lvl ++ ['\x7d']) from rfl]
          rw [show sizePy (PyVal.dict (kv :: kvs)) =
            sizeEntries (kv :: kvs) + 2 from rfl]
          simp only [List.length_cons, List.length_append,
            List.length_singleton]
          omega
termination_by sizeOf v
decreasing_by
  all_goals
    simp_wf
    try subst_vars
    try simp [sizeOf_pair, PyVal.list.sizeOf_spec, PyVal.tuple.sizeOf_spec,
      PyVal.dict.sizeOf_spec, List.cons.sizeOf_spec, Prod.mk.sizeOf_spec]
    try omega


theorem dumpsItems_fuel (p : Bool) (x : PyVal) (xs : List PyVal)
    (lvl : Nat) :
    sizeItems (x :: xs) ≤ 3 * (dumpsItems p (x :: xs) lvl).length + 1 := by
  cases xs with
  | nil =>
      have hd := dumps_fuel p x lvl
      rw [show dumpsItems p [x] lvl = dumps p x lvl from rfl,
        show sizeItems [x] = sizePy x + 1 + 0 from rfl]
      omega
  | cons y ys =>
      have hd := dumps_fuel p x lvl
      have hr := dumpsItems_fuel p y ys lvl
      obtain ⟨w, hsep, -⟩ := itemSep_decomp p lvl
      rw [show dumpsItems p (x :: y :: ys) lvl =
        dumps p x lvl ++ (itemSep p lvl ++ dumpsItems p (y :: ys) lvl)
        from rfl]
      rw [show sizeItems (x :: y :: ys) =
        sizePy x + 1 + sizeItems (y :: ys) from rfl]
      rw [hsep]
      simp only [List.length_append, List.length_cons]
      omega
termination_by sizeOf x + sizeOf xs + 1
decreasing_by
  all_goals
    simp_wf
    try subst_vars
    try simp [sizeOf_pair, PyVal.list.sizeOf_spec, PyVal.tuple.sizeOf_spec,
      PyVal.dict.sizeOf_spec, List.cons.sizeOf_spec, Prod.mk.sizeOf_spec]
    try omega


theorem dumpsEntries_fuel (p : Bool) (kv : List Char × PyVal)
    (kvs : List (List Char × PyVal)) (lvl : Nat) :
    sizeEntries (kv :: kvs) ≤
      3 * (dumpsEntries p (kv :: kvs) lvl).length + 1 := by
  have h0 : sizeEntries ([] : List (List Char × PyVal)) = 0 := rfl
  cases kvs with
  | nil =>
      have hd := dumps_fuel p kv.2 lvl
      rw [sizeEntries_cons, dumpsEntries_one]
      simp only [List.length_cons, List.length_append]
      omega
  | cons kv2 kvs2 =>
      have hd := dumps_fuel p kv.2 lvl
      have hr := dumpsEntries_fuel p kv2 kvs2 lvl
      obtain ⟨w, hsep, -⟩ := itemSep_decomp p lvl
      rw [sizeEntries_cons, dumpsEntries_two, hsep]
      simp only [List.length_append, List.length_cons]
      omega
termination_by sizeOf kv + sizeOf kvs + 1
decreasing_by
  all_goals
    simp_wf
    try subst_vars
    try simp [sizeOf_pair, PyVal.list.sizeOf_spec, PyVal.tuple.sizeOf_spec,
      PyVal.dict.sizeOf_spec, List.cons.sizeOf_spec, Prod.mk.sizeOf_spec]
    try omega


end

/-- `json.loads` inverts `json.dumps` on any tuple-free value whose
dicts have pairwise distinct keys, for pretty and plain serialization
alike. -/
theorem json_loads_json_dumps (p : Bool) (v : PyVal)
    (hv : jsonable v = true) :
    json_loads (json_dumps p v) = Option.some v := by
  have hfd := dumps_fuel p v 0
  have h1 : json_dumps p v = dumps p v 0 ++ [] := by
    rw [List.append_nil]
    rfl
  have hp : parseValue (3 * (dumps p v 0 ++ []).length + 3)
      (dumps p v 0 ++ []) = Option.some (v, []) := by
    refine parse_dumps p v 0 [] _ hv rfl ?_
    rw [List.append_nil]
    omega
  unfold json_loads
  rw [h1, skipWs_dumps_append p v 0 [], hp]
  rfl

/-! ## The pretty serialization, line by line -/

theorem prettyEntryTexts_cons (kv : List Char × PyVal)
    (kvs : List (List Char × PyVal)) (lvl : Nat) :
    prettyEntryTexts (kv :: kvs) lvl =
      ('"' :: (escapeString kv.1 ++
        ('"' :: ':' :: ' ' :: prettySpec kv.2 lvl))) ::
        prettyEntryTexts kvs lvl := by
  cases kv with
  | mk k v => rfl

mutual

theorem dumps_pretty (v : PyVal) (lvl : Nat) :
    dumps true v lvl = prettySpec v lvl := by
  cases v with
  | none => rfl
  | bool b => cases b <;> rfl
  | int i => rfl
  | str s => rfl
  | list xs =>
      cases xs with
      | nil => rfl
      | cons x xs =>
          have hi := dumpsItems_pretty x xs (lvl + 1)
          rw [show dumps true (PyVal.list (x :: xs)) lvl =
            '[' :: (wsOpen true (lvl + 1) ++
              dumpsItems true (x :: xs) (lvl + 1) ++
              wsClose true lvl ++ [']']) from rfl]
          rw [show prettySpec (PyVal.list (x :: xs)) lvl =
            '[' :: '\n' ::
              (joinIndented (prettyTexts (x :: xs) (lvl + 1)) (lvl + 1) ++
                ('\n' :: (spaces (4 * lvl) ++ [']']))) from rfl]
          rw [← hi]
          rw [show wsOpen true (lvl + 1) =
            '\n' :: spaces (4 * (lvl + 1)) from rfl]
          rw [show wsClose true lvl = '\n' :: spaces (4 * lvl) from rfl]
          simp
  | tuple xs =>
      cases xs with
      | nil => rfl
      | cons x xs =>
          have hi := dumpsItems_pretty x xs (lvl + 1)
          rw [show dumps true (PyVal.tuple (x :: xs)) lvl =
            '[' :: (wsOpen true (lvl + 1) ++
              dumpsItems true (x :: xs) (lvl + 1) ++
              wsClose true lvl ++ [']']) from rfl]
          rw [show prettySpec (PyVal.tuple (x :: xs)) lvl =
            '[' :: '\n' ::
              (joinIndented (prettyTexts (x :: xs) (lvl + 1)) (lvl + 1) ++
                ('\n' :: (spaces (4 * lvl) ++ [']']))) from rfl]
          rw [← hi]
          rw [show wsOpen true (lvl + 1) =
            '\n' :: spaces (4 * (lvl + 1)) from rfl]
          rw [show wsClose true lvl = '\n' :: spaces (4 * lvl) from rfl]
          simp
  | dict kvs =>
      cases kvs with
      | nil => rfl
      | cons kv kvs =>
          have hi := dumpsEntries_pretty kv kvs (lvl + 1)
          rw [show dumps true (PyVal.dict (kv :: kvs)) lvl =
            '\x7b' :: (wsOpen true (lvl + 1) ++
              dumpsEntries true (kv :: kvs) (lvl + 1) ++
              wsClose true lvl ++ ['\x7d']) from rfl]
          rw [show prettySpec (PyVal.dict (kv :: kvs)) lvl =
            '\x7b' :: '\n' ::
              (joinIndented (prettyEntryTexts (kv :: kvs) (lvl + 1))
                  (lvl + 1) ++
                ('\n' :: (spaces (4 * lvl) ++ ['\x7d']))) from rfl]
          rw [← hi]
          rw [show wsOpen true (lvl + 1) =
            '\n' :: spaces (4 * (lvl + 1)) from rfl]
          rw [show wsClose true lvl = '\n' :: spaces (4 * lvl) from rfl]
          simp
termination_by sizeOf v
decreasing_by
  all_goals
    simp_wf
    try subst_vars
    try simp [sizeOf_pair, PyVal.list.sizeOf_spec, PyVal.tuple.sizeOf_spec,
      PyVal.dict.sizeOf_spec, List.cons.sizeOf_spec, Prod.mk.sizeOf_spec]
    try omega

theorem dumpsItems_pretty (x : PyVal) (xs : List PyVal) (lvl : Nat) :
    spaces (4 * lvl) ++ dumpsItems true (x :: xs) lvl =
      joinIndented (prettyTexts (x :: xs) lvl) lvl := by
  cases xs with
  | nil =>
      have hd := dumps_pretty x lvl
      rw [show dumpsItems true [x] lvl = dumps true x lvl from rfl]
      rw [show joinIndented (prettyTexts [x] lvl) lvl =
        spaces (4 * lvl) ++ prettySpec x lvl from rfl]
      rw [hd]
  | cons y ys =>
      have hd := dumps_pretty x lvl
      have hr := dumpsItems_pretty y ys lvl
      rw [show dumpsItems true (x :: y :: ys) lvl =
        dumps true x lvl ++
          (itemSep true lvl ++ dumpsItems true (y :: ys) lvl) from rfl]
      rw [show joinIndented (prettyTexts (x :: y :: ys) lvl) lvl =
        spaces (4 * lvl) ++ prettySpec x lvl ++
          (',' :: '\n' :: joinIndented (prettyTexts (y :: ys) lvl) lvl)
        from rfl]
      rw [show itemSep true lvl = ',' :: '\n' :: spaces (4 * lvl) from rfl]
      rw [hd, ← hr]
      simp
termination_by sizeOf x + sizeOf xs + 1
decreasing_by
  all_goals
    simp_wf
    try subst_vars
    try simp [sizeOf_pair, PyVal.list.sizeOf_spec, PyVal.tuple.sizeOf_spec,
      PyVal.dict.sizeOf_spec, List.cons.sizeOf_spec, Prod.mk.sizeOf_spec]
    try omega

theorem dumpsEntries_pretty (kv : List Char × PyVal)
    (kvs : List (List Char × PyVal)) (lvl : Nat) :
    spaces (4 * lvl) ++ dumpsEntries true (kv :: kvs) lvl =
      joinIndented (prettyEntryTexts (kv :: kvs) lvl) lvl := by
  cases kvs with
  | nil =>
      have hd := dumps_pretty kv.2 lvl
      rw [dumpsEntries_one, prettyEntryTexts_cons]
      rw [show prettyEntryTexts ([] : List (List Char × PyVal)) lvl = []
        from rfl]
      rw [show joinIndented
          [('"' :: (escapeString kv.1 ++
            ('"' :: ':' :: ' ' :: prettySpec kv.2 lvl)))] lvl =
        spaces (4 * lvl) ++ ('"' :: (escapeString kv.1 ++
          ('"' :: ':' :: ' ' :: prettySpec kv.2 lvl))) from rfl]
      rw [hd]
  | cons kv2 kvs2 =>
      have hd := dumps_pretty kv.2 lvl
      have hr := dumpsEntries_pretty kv2 kvs2 lvl
      rw [dumpsEntries_two]
      have hj : joinIndented (prettyEntryTexts (kv :: kv2 :: kvs2) lvl)
          lvl =
          spaces (4 * lvl) ++ ('"' :: (escapeString kv.1 ++
            ('"' :: ':' :: ' ' :: prettySpec kv.2 lvl))) ++
            (',' :: '\n' ::
              joinIndented (prettyEntryTexts (kv2 :: kvs2) lvl) lvl) := by
        rw [prettyEntryTexts_cons kv, prettyEntryTexts_cons kv2]
        rfl
      rw [hj]
      rw [show itemSep true lvl = ',' :: '\n' :: spaces (4 * lvl) from rfl]
      rw [hd, ← hr]
      simp
termination_by sizeOf kv + sizeOf kvs + 1
decreasing_by
  all_goals
    simp_wf
    try subst_vars
    try simp [sizeOf_pair, PyVal.list.sizeOf_spec, PyVal.tuple.sizeOf_spec,
      PyVal.dict.sizeOf_spec, List.cons.sizeOf_spec, Prod.mk.sizeOf_spec]
    try omega

end

/-! ## Claims C1 and C9 -/

/-- Claim C1 (corrected): writing a value with `write_json` and reading
it back with `read_json` yields the value again, for pretty as well as
plain serialization — for every value satisfying `jsonable`, i.e. one
containing no tuple and whose dicts have pairwise distinct keys (the
latter automatic for a genuine Python dict).  The unrestricted claim is
false: a tuple is JSON-serializable but comes back as a list (see the
counterexample). -/
theorem write_json_read_json_round_trip (v : PyVal) (path : String)
    (pretty : Bool) (fs : FileFS) (hv : jsonable v = true) :
    read_json path (write_json v path FileMode.w pretty fs).2 =
      Option.some v := by
  have hw : (write_json v path FileMode.w pretty fs).2 =
      fsWrite path (json_dumps pretty v) fs := rfl
  have hl : fsWrite path (json_dumps pretty v) fs path =
      Option.some (json_dumps pretty v) := by
    unfold fsWrite
    rw [if_pos rfl]
  rw [hw]
  unfold read_json
  rw [hl]
  exact json_loads_json_dumps pretty v hv

/-- The round trip at the concrete value
`\x7b"a": [-3, null, "hi", true]\x7d`, in pretty mode, starting from
the empty filesystem. -/
theorem write_json_read_json_round_trip_witness :
    jsonable (PyVal.dict [("a".data,
      PyVal.list [PyVal.int (-3), PyVal.none, PyVal.str "hi".data,
        PyVal.bool true])]) = true ∧
    read_json "f"
      (write_json (PyVal.dict [("a".data,
        PyVal.list [PyVal.int (-3), PyVal.none, PyVal.str "hi".data,
          PyVal.bool true])]) "f" FileMode.w true emptyFS).2 =
      Option.some (PyVal.dict [("a".data,
        PyVal.list [PyVal.int (-3), PyVal.none, PyVal.str "hi".data,
          PyVal.bool true])]) :=
  ⟨by decide,
    write_json_read_json_round_trip _ "f" true emptyFS (by decide)⟩

/-- Claim C1 fails as stated: the tuple `()` is JSON-serializable
(Python serializes it as the array `[]`), but the round trip returns
the list `[]`, not the tuple. -/
theorem write_json_read_json_tuple_cex :
    read_json "f"
        (write_json (PyVal.tuple []) "f" FileMode.w true emptyFS).2 ≠
      Option.some (PyVal.tuple []) := by
  have h : read_json "f"
      (write_json (PyVal.tuple []) "f" FileMode.w true emptyFS).2 =
      Option.some (PyVal.list []) := rfl
  rw [h]
  intro hc
  injection hc with hc2
  exact PyVal.noConfusion hc2

/-- Claim C9 (corrected): with pretty printing, `write_json` writes the
4-space-indented serialization and returns the path — but the item
separator is `','` alone at the end of each line (the code passes
`separators=(',', ': ')`), not `', '` as the spec claims; the key
separator is `': '` as claimed.  `prettySpec` renders each item of a
non-empty container on its own line, indented four spaces per level,
item lines ending in `','` and keys joined to values by `': '`. -/
theorem write_json_pretty_contract (v : PyVal) (filename : String)
    (fs : FileFS) :
    write_json v filename FileMode.w true fs =
      (filename, fsWrite filename (prettySpec v 0) fs) := by
  have h : json_dumps true v = prettySpec v 0 := dumps_pretty v 0
  show (filename, fsWrite filename (json_dumps true v) fs) = _
  rw [h]

/-- Claim C9's separator is refuted at `[1, 2]`: the pretty text is
`[\n    1,\n    2\n]` — the first item line ends with `','` alone — and
differs from the `[\n    1, \n    2\n]` an `', '` item separator would
produce. -/
theorem write_json_pretty_sep_cex :
    ((write_json (PyVal.list [PyVal.int 1, PyVal.int 2]) "f" FileMode.w
        true emptyFS).2 "f" =
      Option.some "[\n    1,\n    2\n]".data) ∧
    ((write_json (PyVal.list [PyVal.int 1, PyVal.int 2]) "f" FileMode.w
        true emptyFS).2 "f" ≠
      Option.some "[\n    1, \n    2\n]".data) := by
  decide

end SingUtils
